import Mathlib

/-!
# picohash: a fixed-bucket-count chained hash table (picoquic/picohash.c)

Shallow embedding of `picohash.c`.

* Pointers to items are natural numbers; the C `NULL` is `none` in `Option Addr`.
* Item memory is a function from addresses to item records; the bucket array is a
  function from indices to chain heads together with the bucket count `nb_bin`.
* `uint64_t`, `size_t` and `uint32_t` values are natural numbers, reduced modulo
  `2^64` or `2^32` at the places where the C code can wrap or truncate.
* Calls of `free` are recorded, in order, in the `freed` trace of the memory.
* The `while` loops that walk a chain take a fuel argument; running out of fuel is the
  fault `out_of_fuel`. Undefined behaviour of the C code (division by zero, store
  through `NULL`) is a fault as well.
-/

namespace Picohash

/-! ## Data model -/

/-- Address of a `picohash_item` (a non-null `picohash_item*`). -/
abbrev Addr := Nat

/-- A key pointer, `const void*`: the table never looks inside. -/
abbrev Key := Nat

/-- Number of values of a `uint64_t` or of a `size_t`. -/
def UINT64_MOD : Nat := 2 ^ 64

/-- Number of values of a `uint32_t`. -/
def UINT32_MOD : Nat := 2 ^ 32

/-- Value of `sizeof(picohash_item*)` on the 64-bit machine. -/
def SIZEOF_ITEM_PTR : Nat := 8

/-- Ways in which the C code can fail to return. -/
inductive Fault where
  | div_by_zero
  | null_deref
  | out_of_fuel
  deriving DecidableEq, Repr

/-- Modelled from the spec: the declaration of `picohash_item` (picohash.h) is not among
the sources. The fields are those that picohash.c reads and writes: the cached hash, a
`uint64_t`, the key reference and the link to the next item of the bucket. -/
structure picohash_item where
  hash : Nat
  key : Key
  next_in_bin : Option Addr
  deriving DecidableEq, Repr

/-- Modelled from the spec: the declaration of `picohash_table` (picohash.h) is not among
the sources. The fields are those that picohash.c reads and writes; the bucket count
`nb_bin` and the item count `count` are `size_t` values, `hash_bin` is the bucket array,
read at the indices below `nb_bin`. -/
structure picohash_table where
  nb_bin : Nat
  count : Nat
  picohash_hash : Key → List Nat → Nat
  picohash_compare : Key → Key → Int
  picohash_key_to_item : Option (Key → Option Addr)
  hash_seed : List Nat
  hash_bin : Nat → Option Addr

/-- One call of `free`. -/
inductive Freed where
  | item (a : Addr)
  | key (k : Key)
  | hash_bin
  | table
  deriving DecidableEq, Repr

/-- Memory seen by the table operations: the table, the item memory, the trace of
`free` calls. -/
structure Mem where
  table : picohash_table
  items : Addr → picohash_item
  freed : List Freed

/-- The static `null_seed` of `picohash_create_ex`: 16 zero bytes. -/
def null_seed : List Nat := List.replicate 16 0

/-! ## Operations -/

/-- Creation, `picohash_create_ex`. `malloc_table` tells whether the allocation of the
table structure succeeds, `malloc_bins n` whether an allocation of `n` bytes for the
bucket array succeeds. The result is `none` for the C `NULL`. The store
`t->hash_bin = NULL` comes before the test of `t`, so a failed first allocation is a
fault. -/
def picohash_create_ex (malloc_table : Bool) (malloc_bins : Nat → Bool) (nb_bin : Nat)
    (picohash_hash : Key → List Nat → Nat) (picohash_compare : Key → Key → Int)
    (picohash_key_to_item : Option (Key → Option Addr)) (hash_seed : Option (List Nat)) :
    Except Fault (Option picohash_table) :=
  let items_length := (SIZEOF_ITEM_PTR * nb_bin) % UINT64_MOD
  if malloc_table = false then
    .error .null_deref
  else
    let allocated : Bool :=
      if items_length / SIZEOF_ITEM_PTR = nb_bin then
        malloc_bins ((SIZEOF_ITEM_PTR * nb_bin) % UINT64_MOD)
      else false
    if allocated = false then
      .ok none
    else
      .ok (some
        { nb_bin := nb_bin
          count := 0
          picohash_hash := picohash_hash
          picohash_compare := picohash_compare
          picohash_key_to_item := picohash_key_to_item
          hash_seed := match hash_seed with
            | none => null_seed
            | some s => s
          hash_bin := fun _ => none })

/-- Creation in owned mode with the default seed, `picohash_create`. -/
def picohash_create (malloc_table : Bool) (malloc_bins : Nat → Bool) (nb_bin : Nat)
    (picohash_hash : Key → List Nat → Nat) (picohash_compare : Key → Key → Int) :
    Except Fault (Option picohash_table) :=
  picohash_create_ex malloc_table malloc_bins nb_bin picohash_hash picohash_compare none none

/-- The value `hash_table->picohash_hash(key, hash_table->hash_seed)` as a `uint64_t`. -/
def key_hash (t : picohash_table) (key : Key) : Nat :=
  t.picohash_hash key t.hash_seed % UINT64_MOD

/-- The bucket index `(uint32_t)(hash % nb_bin)` for a positive bucket count. -/
def bin_of (nb_bin hash : Nat) : Nat :=
  (hash % nb_bin) % UINT32_MOD

/-- The statement `uint32_t bin = (uint32_t)(hash % hash_table->nb_bin);`. -/
def bin_index (nb_bin hash : Nat) : Except Fault Nat :=
  if nb_bin = 0 then .error .div_by_zero else .ok (bin_of nb_bin hash)

/-- The `while` loop of `picohash_retrieve`, started at `item`. -/
def retrieve_loop (compare : Key → Key → Int) (items : Addr → picohash_item) (key : Key) :
    Nat → Option Addr → Except Fault (Option Addr)
  | 0, _ => .error .out_of_fuel
  | _ + 1, none => .ok none
  | fuel + 1, some a =>
    if compare key (items a).key = 0 then .ok (some a)
    else retrieve_loop compare items key fuel (items a).next_in_bin

/-- Lookup, `picohash_retrieve`. -/
def picohash_retrieve (fuel : Nat) (m : Mem) (key : Key) : Except Fault (Option Addr) :=
  match bin_index m.table.nb_bin (key_hash m.table key) with
  | .error e => .error e
  | .ok bin =>
    retrieve_loop m.table.picohash_compare m.items key fuel (m.table.hash_bin bin)

/-- The item that `picohash_insert` obtains: the result of `malloc` in owned mode, the
result of the extractor in intrusive mode. -/
def obtain_item (t : picohash_table) (malloc : Option Addr) (key : Key) : Option Addr :=
  match t.picohash_key_to_item with
  | none => malloc
  | some key_to_item => key_to_item key

/-- Insertion, `picohash_insert`. `malloc` is what the allocator returns if it is
called. The result is the returned `int` and the memory after the call. -/
def picohash_insert (malloc : Option Addr) (m : Mem) (key : Key) : Except Fault (Int × Mem) :=
  let hash := key_hash m.table key
  match bin_index m.table.nb_bin hash with
  | .error e => .error e
  | .ok bin =>
    match obtain_item m.table malloc key with
    | none => .ok (-1, m)
    | some item =>
      .ok (0,
        { m with
          items := Function.update m.items item
            { hash := hash, key := key, next_in_bin := m.table.hash_bin bin }
          table :=
            { m.table with
              hash_bin := Function.update m.table.hash_bin bin (some item)
              count := (m.table.count + 1) % UINT64_MOD } })

/-- The statement `hash_table->count--` on a `size_t`: the value before zero is the
largest `size_t`. For a `size_t` value this is `(count + 2^64 - 1) % 2^64`, see
`count_dec_eq_mod`. -/
def count_dec (count : Nat) : Nat :=
  if count = 0 then UINT64_MOD - 1 else count - 1

/-- The `while (previous != NULL)` loop of `picohash_delete_item`. -/
def unlink_loop (item : Addr) : Nat → Mem → Option Addr → Except Fault Mem
  | 0, _, _ => .error .out_of_fuel
  | _ + 1, m, none => .ok m
  | fuel + 1, m, some previous =>
    if (m.items previous).next_in_bin = some item then
      .ok
        { m with
          items := Function.update m.items previous
            { m.items previous with next_in_bin := (m.items item).next_in_bin }
          table := { m.table with count := count_dec m.table.count } }
    else unlink_loop item fuel m (m.items previous).next_in_bin

/-- The two `free` calls that end `picohash_delete_item`. -/
def release_item (m : Mem) (item : Addr) (delete_key_too : Bool) : Mem :=
  let shall_delete := (m.items item).key
  let freed1 := match m.table.picohash_key_to_item with
    | none => m.freed ++ [Freed.item item]
    | some _ => m.freed
  let freed2 := if delete_key_too then freed1 ++ [Freed.key shall_delete] else freed1
  { m with freed := freed2 }

/-- Deletion of an item, `picohash_delete_item`. The item pointer is not null. -/
def picohash_delete_item (fuel : Nat) (m : Mem) (item : Addr) (delete_key_too : Bool) :
    Except Fault Mem :=
  match bin_index m.table.nb_bin (m.items item).hash with
  | .error e => .error e
  | .ok bin =>
    let previous := m.table.hash_bin bin
    let unlinked : Except Fault Mem :=
      if previous = some item then
        .ok
          { m with
            table :=
              { m.table with
                hash_bin := Function.update m.table.hash_bin bin (m.items item).next_in_bin
                count := count_dec m.table.count } }
      else unlink_loop item fuel m previous
    match unlinked with
    | .error e => .error e
    | .ok m1 => .ok (release_item m1 item delete_key_too)

/-- Deletion by key, `picohash_delete_key`. -/
def picohash_delete_key (fuel : Nat) (m : Mem) (key : Key) (delete_key_too : Bool) :
    Except Fault Mem :=
  match picohash_retrieve fuel m key with
  | .error e => .error e
  | .ok (some item) => picohash_delete_item fuel m item delete_key_too
  | .ok none =>
    if delete_key_too then .ok { m with freed := m.freed ++ [Freed.key key] } else .ok m

/-- The inner `while (item != NULL)` loop of `picohash_delete`: the `free` calls made
while walking one chain. -/
def delete_chain (t : picohash_table) (items : Addr → picohash_item) (delete_key_too : Bool) :
    Nat → Option Addr → List Freed → Except Fault (List Freed)
  | 0, _, _ => .error .out_of_fuel
  | _ + 1, none, freed => .ok freed
  | fuel + 1, some tmp, freed =>
    let key_to_delete := (items tmp).key
    let freed1 := match t.picohash_key_to_item with
      | none => freed ++ [Freed.item tmp]
      | some _ => freed
    let freed2 := if delete_key_too then freed1 ++ [Freed.key key_to_delete] else freed1
    delete_chain t items delete_key_too fuel (items tmp).next_in_bin freed2

/-- The `for (uint32_t i = 0; i < hash_table->nb_bin; i++)` loop of `picohash_delete`,
entered with the value `i`; the increment is that of a `uint32_t`. `inner` is the fuel
of each chain walk. -/
def delete_bins (inner : Nat) (m : Mem) (delete_key_too : Bool) :
    Nat → Nat → List Freed → Except Fault (List Freed)
  | 0, _, _ => .error .out_of_fuel
  | fuel + 1, i, freed =>
    if i < m.table.nb_bin then
      match delete_chain m.table m.items delete_key_too inner (m.table.hash_bin i) freed with
      | .error e => .error e
      | .ok freed1 => delete_bins inner m delete_key_too fuel ((i + 1) % UINT32_MOD) freed1
    else .ok freed

/-- Destruction, `picohash_delete`: the trace of `free` calls when it returns. -/
def picohash_delete (fuel : Nat) (m : Mem) (delete_key_too : Bool) :
    Except Fault (List Freed) :=
  let walked : Except Fault (List Freed) :=
    if m.table.count > 0 then delete_bins fuel m delete_key_too fuel 0 m.freed
    else .ok m.freed
  match walked with
  | .error e => .error e
  | .ok freed => .ok (freed ++ [Freed.hash_bin, Freed.table])

/-! ## Chains and the representation invariant -/

/-- The chain that starts at the pointer `p` visits exactly the addresses of `l`, in
this order, and then reaches `NULL`. -/
def IsChain (items : Addr → picohash_item) : Option Addr → List Addr → Prop
  | p, [] => p = none
  | p, a :: l => p = some a ∧ IsChain items (items a).next_in_bin l

instance IsChain.decide (items : Addr → picohash_item) :
    ∀ (p : Option Addr) (l : List Addr), Decidable (IsChain items p l)
  | p, [] => inferInstanceAs (Decidable (p = none))
  | p, a :: l =>
    have := IsChain.decide items (items a).next_in_bin l
    inferInstanceAs (Decidable (p = some a ∧ IsChain items (items a).next_in_bin l))

/-- All the items of the buckets `0 .. n-1`, bucket after bucket. -/
def all_items (ch : Nat → List Addr) : Nat → List Addr
  | 0 => []
  | n + 1 => all_items ch n ++ ch n

/-- Sum of the chain lengths of the buckets `0 .. n-1`. -/
def chain_total (ch : Nat → List Addr) : Nat → Nat
  | 0 => 0
  | n + 1 => chain_total ch n + (ch n).length

/-- A non-null pointer value of the 64-bit machine. -/
def valid_ptr (a : Addr) : Prop := 0 < a ∧ a < UINT64_MOD

instance (a : Addr) : Decidable (valid_ptr a) := inferInstanceAs (Decidable (_ ∧ _))

/-- Representation invariant: `ch i` is the chain of bucket `i`, each item sits in the
bucket selected by its cached hash, item pointers are machine pointers, and `count` is
the number of items. -/
structure WF (m : Mem) (ch : Nat → List Addr) : Prop where
  chain : ∀ i, i < m.table.nb_bin → IsChain m.items (m.table.hash_bin i) (ch i)
  home : ∀ i, i < m.table.nb_bin → ∀ a ∈ ch i, bin_of m.table.nb_bin (m.items a).hash = i
  valid : ∀ i, i < m.table.nb_bin → ∀ a ∈ ch i, valid_ptr a
  count : m.table.count = chain_total ch m.table.nb_bin

/-- The two tables have the same configuration: bucket count, functions and seed. -/
def SameConfig (t t1 : picohash_table) : Prop :=
  t1.nb_bin = t.nb_bin ∧ t1.picohash_hash = t.picohash_hash ∧
  t1.picohash_compare = t.picohash_compare ∧
  t1.picohash_key_to_item = t.picohash_key_to_item ∧ t1.hash_seed = t.hash_seed

/-- The memory after the unlink of `item` behind its predecessor `q`. -/
def unlinked_after (m : Mem) (item q : Addr) : Mem :=
  { m with
    items := Function.update m.items q
      { m.items q with next_in_bin := (m.items item).next_in_bin }
    table := { m.table with count := count_dec m.table.count } }

/-- The memory after the unlink of `item` when it is the head of bucket `bin`. -/
def unlinked_head (m : Mem) (item : Addr) (bin : Nat) : Mem :=
  { m with
    table :=
      { m.table with
        hash_bin := Function.update m.table.hash_bin bin (m.items item).next_in_bin
        count := count_dec m.table.count } }


/-! ## Fixtures of the examples -/

/-- Hash function of the examples: the key pointer itself. -/
def ex_hash : Key → List Nat → Nat := fun k _ => k

/-- Comparator of the examples: `0` on equal key pointers, `1` otherwise. -/
def ex_compare : Key → Key → Int := fun a b => if a = b then 0 else 1

/-- Item memory of the examples before any insertion. -/
def ex_items : Addr → picohash_item := fun _ => { hash := 0, key := 0, next_in_bin := none }

/-- An allocator of the examples that never fails. -/
def ex_malloc_bins : Nat → Bool := fun _ => true

/-- The table that `picohash_create_ex` builds when it succeeds. -/
def created_table (nb_bin : Nat) (picohash_hash : Key → List Nat → Nat)
    (picohash_compare : Key → Key → Int) (picohash_key_to_item : Option (Key → Option Addr))
    (hash_seed : Option (List Nat)) : picohash_table :=
  { nb_bin := nb_bin
    count := 0
    picohash_hash := picohash_hash
    picohash_compare := picohash_compare
    picohash_key_to_item := picohash_key_to_item
    hash_seed := match hash_seed with
      | none => null_seed
      | some s => s
    hash_bin := fun _ => none }

/-- A memory with the given table, the blank item memory and no `free` call yet. -/
def ex_mem (t : picohash_table) : Mem := { table := t, items := ex_items, freed := [] }

/-- The memory after a call of `picohash_insert` that returned. -/
def mem_after (r : Except Fault (Int × Mem)) (otherwise : Mem) : Mem :=
  match r with
  | .ok (_, m) => m
  | .error _ => otherwise

/-- Owned-mode table with 4 buckets, as `picohash_create` builds it. -/
def ex_table4 : picohash_table := created_table 4 ex_hash ex_compare none none

/-- The memory of the examples after the insertion of key 5 with the item at address 16
into the empty table of 4 buckets. -/
def ex_mem1 : Mem :=
  mem_after (picohash_insert (some 16) (ex_mem ex_table4) 5) (ex_mem ex_table4)

/-- The scenario with 4 buckets: the memory after the insertion of key 4 ("a", bucket 0)
with the item at address 16. -/
def ex_abc1 : Mem :=
  mem_after (picohash_insert (some 16) (ex_mem ex_table4) 4) (ex_mem ex_table4)

/-- The scenario with 4 buckets: then key 8 ("b", bucket 0) with the item at address 32. -/
def ex_abc2 : Mem := mem_after (picohash_insert (some 32) ex_abc1 8) ex_abc1

/-- The scenario with 4 buckets: then key 1 ("c", bucket 1) with the item at address 48. -/
def ex_abc3 : Mem := mem_after (picohash_insert (some 48) ex_abc2 1) ex_abc2

/-- The chains of the scenario after the three insertions. -/
def ex_abc_chains : Nat → List Addr
  | 0 => [32, 16]
  | 1 => [48]
  | _ => []

/-- Hash function of the duplicate-key example: the low 4 bits of the key pointer. -/
def ex_hash16 : Key → List Nat → Nat := fun k _ => k % 16

/-- Comparator of the duplicate-key example: keys are equal when their low 4 bits are. -/
def ex_compare16 : Key → Key → Int := fun a b => if a % 16 = b % 16 then 0 else 1

/-- Owned-mode table with 4 buckets for the duplicate-key example. -/
def ex_table16 : picohash_table := created_table 4 ex_hash16 ex_compare16 none none

/-- Owned-mode table with `2^32 + 1` buckets, as `picohash_create` builds it. -/
def ex_table_wide : picohash_table := created_table (2 ^ 32 + 1) ex_hash ex_compare none none

/-- Owned-mode table with `2^32` buckets, as `picohash_create` builds it. -/
def ex_table_2p32 : picohash_table := created_table (2 ^ 32) ex_hash ex_compare none none

/-- The table with `2^32` buckets after the insertion of key 7 with the item at 16. -/
def ex_wide1 : Mem :=
  mem_after (picohash_insert (some 16) (ex_mem ex_table_2p32) 7) (ex_mem ex_table_2p32)

/-! ## Reachable states -/

/-- The item `a` is in no bucket chain of the table. -/
def fresh_item (m : Mem) (a : Addr) : Prop :=
  ∀ i, i < m.table.nb_bin → ∀ l, IsChain m.items (m.table.hash_bin i) l → a ∉ l

/-- What the environment always grants to `picohash_insert`: the item pointer it obtains
is a machine pointer, and memory that `malloc` returns (owned mode) is not in use, so it is
no item of the table. Nothing is asked of the item that an extractor returns. -/
def alloc_contract (m : Mem) (malloc : Option Addr) (key : Key) : Prop :=
  ∀ a, obtain_item m.table malloc key = some a →
    valid_ptr a ∧ (m.table.picohash_key_to_item = none → fresh_item m a)

/-- The stronger condition on a call of `picohash_insert`: in both modes the item it
obtains is a machine pointer and is in no bucket chain of the table. -/
def fresh_contract (m : Mem) (malloc : Option Addr) (key : Key) : Prop :=
  ∀ a, obtain_item m.table malloc key = some a → valid_ptr a ∧ fresh_item m a

/-- The memories reachable from a created table by calls of `picohash_insert` that are
admitted by `adm`, of `picohash_delete_item` and of `picohash_delete_key` that return. -/
inductive Reachable (adm : Mem → Option Addr → Key → Prop) : Mem → Prop where
  | create (mt : Bool) (mb : Nat → Bool) (nb_bin : Nat) (hash : Key → List Nat → Nat)
      (compare : Key → Key → Int) (k2i : Option (Key → Option Addr))
      (seed : Option (List Nat)) (t : picohash_table) (items : Addr → picohash_item)
      (freed : List Freed) :
      picohash_create_ex mt mb nb_bin hash compare k2i seed = .ok (some t) →
      Reachable adm ⟨t, items, freed⟩
  | insert (m : Mem) (malloc : Option Addr) (key : Key) (r : Int) (m1 : Mem) :
      Reachable adm m → adm m malloc key →
      picohash_insert malloc m key = .ok (r, m1) → Reachable adm m1
  | delete_item (m : Mem) (fuel : Nat) (item : Addr) (flag : Bool) (m1 : Mem) :
      Reachable adm m → picohash_delete_item fuel m item flag = .ok m1 → Reachable adm m1
  | delete_key (m : Mem) (fuel : Nat) (key : Key) (flag : Bool) (m1 : Mem) :
      Reachable adm m → picohash_delete_key fuel m key flag = .ok m1 → Reachable adm m1

/-- Extractor of the intrusive example: the item is embedded in the key structure, 8
bytes after its start. -/
def ex_key_to_item : Key → Option Addr := fun k => some (k + 8)

/-- Intrusive-mode table with 4 buckets. -/
def ex_table_intrusive : picohash_table :=
  created_table 4 ex_hash ex_compare (some ex_key_to_item) none

/-- The intrusive table after the insertion of key 8. -/
def ex_twice1 : Mem :=
  mem_after (picohash_insert none (ex_mem ex_table_intrusive) 8) (ex_mem ex_table_intrusive)

/-- The intrusive table after a second insertion of the same key 8. -/
def ex_twice2 : Mem := mem_after (picohash_insert none ex_twice1 8) ex_twice1

/-! ## A sequence of insertions -/

/-- Calls of `picohash_insert` in sequence, one for each pair of an item address and a key;
the allocator, if it is called, returns the item address of the pair. The result is the
list of the returned values and the memory after the last call. -/
def insert_all : Mem → List (Addr × Key) → Except Fault (List Int × Mem)
  | m, [] => .ok ([], m)
  | m, (a, key) :: rest =>
    match picohash_insert (some a) m key with
    | .error e => .error e
    | .ok (r, m1) =>
      match insert_all m1 rest with
      | .error e => .error e
      | .ok (rs, m2) => .ok (r :: rs, m2)

/-- The memory `m`, with chains `ch`, holds exactly the items of the pairs in `done`, each
with its key and the hash of its key under the configuration `t0`. -/
structure Inserted (t0 : picohash_table) (m : Mem) (ch : Nat → List Addr)
    (done : List (Addr × Key)) : Prop where
  wf : WF m ch
  config : SameConfig t0 m.table
  known : ∀ i, i < m.table.nb_bin → ∀ a ∈ ch i, ∃ k, (a, k) ∈ done
  placed : ∀ p ∈ done, p.1 ∈ ch (bin_of t0.nb_bin (key_hash t0 p.2)) ∧
    (m.items p.1).key = p.2 ∧ (m.items p.1).hash = key_hash t0 p.2
  count : m.table.count = done.length

/-- The insertions of the 4-bucket scenario: item address and key of each call. -/
def ex_abc_calls : List (Addr × Key) := [(16, 4), (32, 8), (48, 1)]

/-! ## The `free` calls of a destruction -/

/-- The `free` calls that `picohash_delete` makes for one item: the item in owned mode,
then its key when `delete_key_too` is set. -/
def item_frees (t : picohash_table) (items : Addr → picohash_item) (delete_key_too : Bool)
    (a : Addr) : List Freed :=
  (match t.picohash_key_to_item with
    | none => [Freed.item a]
    | some _ => []) ++
  (if delete_key_too then [Freed.key (items a).key] else [])

/-- The `free` calls for the items of one chain, from its head. -/
def chain_frees (t : picohash_table) (items : Addr → picohash_item) (delete_key_too : Bool) :
    List Addr → List Freed
  | [] => []
  | a :: l => item_frees t items delete_key_too a ++ chain_frees t items delete_key_too l

/-- The `free` calls for the chains of the `len` buckets from bucket `start` on. -/
def bin_frees (t : picohash_table) (items : Addr → picohash_item) (delete_key_too : Bool)
    (ch : Nat → List Addr) : Nat → Nat → List Freed
  | _, 0 => []
  | start, len + 1 =>
    chain_frees t items delete_key_too (ch start) ++
      bin_frees t items delete_key_too ch (start + 1) len

/-- The items of the chains of the `len` buckets from bucket `start` on. -/
def bin_items (ch : Nat → List Addr) : Nat → Nat → List Addr
  | _, 0 => []
  | start, len + 1 => ch start ++ bin_items ch (start + 1) len

/-- The keys released in a trace of `free` calls, in order. -/
def released_keys : List Freed → List Key
  | [] => []
  | Freed.key k :: l => k :: released_keys l
  | _ :: l => released_keys l

/-! ## The hash functions -/

/-- Byte `j` of the seed, `hash_seed[j]`. The seed has 16 bytes. -/
def seed_byte (hash_seed : List Nat) (j : Nat) : Nat := hash_seed.getD j 0 % 256

/-- The initial value of `hash` in `picohash_bytes`: the sum of the seed bytes 8 to 15,
each shifted to its place, as a `uint64_t`. -/
def seed_word (hash_seed : List Nat) : Nat :=
  (seed_byte hash_seed 8 + (seed_byte hash_seed 9 <<< 8) + (seed_byte hash_seed 10 <<< 16) +
    (seed_byte hash_seed 11 <<< 24) + (seed_byte hash_seed 12 <<< 32) +
    (seed_byte hash_seed 13 <<< 40) + (seed_byte hash_seed 14 <<< 48) +
    (seed_byte hash_seed 15 <<< 56)) % UINT64_MOD

/-- The variables of `picohash_bytes`, with the trace `shifts` of the amounts of the
right shifts made so far. -/
structure bytes_state where
  hash : Nat
  rotate : Nat
  shifts : List Nat
  deriving DecidableEq, Repr

/-- The body of the `for` loop of `picohash_bytes` for one input byte and one seed byte. -/
def bytes_step (st : bytes_state) (byte seed : Nat) : bytes_state :=
  let h1 := st.hash ^^^ byte
  let h2 := h1 ^^^ seed
  let h3 := h2 ^^^ ((h2 <<< 8) % UINT64_MOD)
  let h4 := (h3 + (h3 >>> st.rotate)) % UINT64_MOD
  { hash := h4, rotate := (h4 &&& 31) + 11, shifts := st.shifts ++ [st.rotate] }

/-- The loop `for (uint32_t i = 0; i < length; i++)` of `picohash_bytes`, entered with the
value `i`; the increment is that of a `uint32_t`. `bytes i` is the byte `bytes[i]`. -/
def bytes_loop (bytes : Nat → Nat) (length : Nat) (hash_seed : List Nat) :
    Nat → Nat → bytes_state → Except Fault bytes_state
  | 0, _, _ => .error .out_of_fuel
  | fuel + 1, i, st =>
    if i < length then
      bytes_loop bytes length hash_seed fuel ((i + 1) % UINT32_MOD)
        (bytes_step st (bytes i % 256) (seed_byte hash_seed (i &&& 15)))
    else .ok st

/-- The run of `picohash_bytes`: the final variables and the trace of the shift amounts. -/
def picohash_bytes_run (fuel : Nat) (bytes : Nat → Nat) (length : Nat) (hash_seed : List Nat) :
    Except Fault bytes_state :=
  match bytes_loop bytes length hash_seed fuel 0
      { hash := seed_word hash_seed, rotate := 11, shifts := [] } with
  | .error e => .error e
  | .ok st =>
    .ok { hash := st.hash ^^^ (st.hash >>> st.rotate), rotate := st.rotate,
          shifts := st.shifts ++ [st.rotate] }

/-- The mixing hash, `picohash_bytes`: the returned `uint64_t`. -/
def picohash_bytes (fuel : Nat) (bytes : Nat → Nat) (length : Nat) (hash_seed : List Nat) :
    Except Fault Nat :=
  match picohash_bytes_run fuel bytes length hash_seed with
  | .error e => .error e
  | .ok st => .ok st.hash

/-- One step of the reference fold of the mixing hash on the pair of the accumulator and
the rotate amount, for the input byte at index `i`. -/
def ref_step (bytes : Nat → Nat) (hash_seed : List Nat) (s : Nat × Nat) (i : Nat) : Nat × Nat :=
  let a1 := s.1 ^^^ (bytes i % 256)
  let a2 := a1 ^^^ seed_byte hash_seed (i % 16)
  let a3 := a2 ^^^ ((a2 <<< 8) % 2 ^ 64)
  let a4 := (a3 + (a3 >>> s.2)) % 2 ^ 64
  (a4, (a4 &&& 31) + 11)

/-- The little-endian 64-bit value of the seed bytes 8 to 15. -/
def seed_le64 (hash_seed : List Nat) : Nat :=
  seed_byte hash_seed 8 + seed_byte hash_seed 9 * 2 ^ 8 + seed_byte hash_seed 10 * 2 ^ 16 +
    seed_byte hash_seed 11 * 2 ^ 24 + seed_byte hash_seed 12 * 2 ^ 32 +
    seed_byte hash_seed 13 * 2 ^ 40 + seed_byte hash_seed 14 * 2 ^ 48 +
    seed_byte hash_seed 15 * 2 ^ 56

/-- The reference fold of the mixing hash, written from the words of the specification:
start from the little-endian value of the seed bytes 8 to 15 and the rotate amount 11,
fold `ref_step` over the indices of the input in order, and return the accumulator
xor-folded by the last rotate amount. -/
def picohash_bytes_ref (bytes : Nat → Nat) (length : Nat) (hash_seed : List Nat) : Nat :=
  let final := (List.range length).foldl (ref_step bytes hash_seed) (seed_le64 hash_seed, 11)
  final.1 ^^^ (final.1 >>> final.2)

/-- The seeded pseudorandom hash, `picohash_siphash`. The keyed hash primitive `siphash`
(siphash.c, not among the sources) is a parameter: from the input, its length, the key and
the output size it gives the output bytes `sip_out`. -/
def picohash_siphash (siphash : (Nat → Nat) → Nat → List Nat → Nat → List Nat)
    (bytes : Nat → Nat) (length : Nat) (hash_seed : List Nat) : Nat :=
  let sip_out := siphash bytes length hash_seed 8
  (seed_byte sip_out 0 + (seed_byte sip_out 1 <<< 8) + (seed_byte sip_out 2 <<< 16) +
    (seed_byte sip_out 3 <<< 24) + (seed_byte sip_out 4 <<< 32) +
    (seed_byte sip_out 5 <<< 40) + (seed_byte sip_out 6 <<< 48) +
    (seed_byte sip_out 7 <<< 56)) % UINT64_MOD

/-- The `free` calls of `picohash_create_ex`: the table structure is freed when it was
allocated and the bucket array was not. -/
def picohash_create_ex_freed (malloc_table : Bool) (malloc_bins : Nat → Bool) (nb_bin : Nat) :
    Except Fault (List Freed) :=
  let items_length := (SIZEOF_ITEM_PTR * nb_bin) % UINT64_MOD
  if malloc_table = false then
    .error .null_deref
  else
    let allocated : Bool :=
      if items_length / SIZEOF_ITEM_PTR = nb_bin then
        malloc_bins ((SIZEOF_ITEM_PTR * nb_bin) % UINT64_MOD)
      else false
    if allocated = false then .ok [Freed.table] else .ok []

/-- The table of `2^32 + 1` buckets after the insertion of the key with hash `2^32`, the
item at address 16. -/
def ex_wide_inserted : Mem :=
  mem_after (picohash_insert (some 16) (ex_mem ex_table_wide) (2 ^ 32)) (ex_mem ex_table_wide)

/-- Byte sequence of the examples: the bytes 1, 2, 3, then zeros. -/
def ex_bytes : Nat → Nat := fun i => if i < 3 then i + 1 else 0

/-- Seed of the examples: the bytes 0 to 15. -/
def ex_seed : List Nat := [0, 1, 2, 3, 4, 5, 6, 7, 8, 9, 10, 11, 12, 13, 14, 15]

/-- Seed of the examples that differs from `ex_seed` in the bytes 3 to 7. -/
def ex_seed_other : List Nat := [0, 1, 2, 93, 94, 95, 96, 97, 8, 9, 10, 11, 12, 13, 14, 15]

/-- Keyed hash primitive of the examples: it returns the first bytes of the key. -/
def ex_siphash : (Nat → Nat) → Nat → List Nat → Nat → List Nat :=
  fun _ _ key outlen => key.take outlen

/-! ## Lemmas on chains -/

theorem isChain_unique {items : Addr → picohash_item} :
    ∀ {l l1 : List Addr} {p : Option Addr}, IsChain items p l → IsChain items p l1 → l = l1
  | [], [], _, _, _ => rfl
  | [], _ :: _, _, h, h1 => by
    simp only [IsChain] at h h1
    rw [h] at h1
    exact absurd h1.1 (by simp)
  | _ :: _, [], _, h, h1 => by
    simp only [IsChain] at h h1
    rw [h1] at h
    exact absurd h.1 (by simp)
  | a :: l, b :: l1, p, h, h1 => by
    simp only [IsChain] at h h1
    have hab : a = b := by
      have := h.1.symm.trans h1.1
      simpa using this
    subst hab
    rw [isChain_unique h.2 h1.2]

theorem isChain_suffix {items : Addr → picohash_item} :
    ∀ {l : List Addr} {p : Option Addr} {a : Addr}, IsChain items p l → a ∈ l →
      ∃ l1 l2, l = l1 ++ a :: l2 ∧ IsChain items (some a) (a :: l2)
  | [], _, _, _, ha => by simp at ha
  | b :: l, p, a, h, ha => by
    simp only [IsChain] at h
    by_cases hab : a = b
    · subst hab
      exact ⟨[], l, rfl, ⟨rfl, h.2⟩⟩
    · have ha1 : a ∈ l := by
        rcases List.mem_cons.1 ha with h1 | h1
        · exact absurd h1 hab
        · exact h1
      obtain ⟨l1, l2, hl, hc⟩ := isChain_suffix h.2 ha1
      exact ⟨b :: l1, l2, by rw [hl]; rfl, hc⟩

theorem isChain_head_not_mem_tail {items : Addr → picohash_item} {l : List Addr}
    {p : Option Addr} {a : Addr} (h : IsChain items p (a :: l)) : a ∉ l := by
  intro ha
  have h0 := h
  simp only [IsChain] at h
  obtain ⟨l1, l2, hl, hc⟩ := isChain_suffix h.2 ha
  have h1 : IsChain items (some a) (a :: l) := ⟨rfl, h.2⟩
  have := isChain_unique h1 hc
  have hlen := congrArg List.length this
  rw [hl] at hlen
  simp at hlen
  omega

theorem isChain_nodup {items : Addr → picohash_item} :
    ∀ {l : List Addr} {p : Option Addr}, IsChain items p l → l.Nodup
  | [], _, _ => List.nodup_nil
  | a :: l, p, h => by
    have hn := isChain_head_not_mem_tail h
    simp only [IsChain] at h
    exact List.nodup_cons.2 ⟨hn, isChain_nodup h.2⟩

theorem isChain_congr {items items1 : Addr → picohash_item} :
    ∀ {l : List Addr} {p : Option Addr},
      (∀ a ∈ l, (items1 a).next_in_bin = (items a).next_in_bin) →
      IsChain items p l → IsChain items1 p l
  | [], _, _, h => h
  | a :: l, p, hs, h => by
    simp only [IsChain] at h ⊢
    refine ⟨h.1, ?_⟩
    rw [hs a (List.mem_cons_self a l)]
    exact isChain_congr (fun x hx => hs x (List.mem_cons_of_mem a hx)) h.2

theorem retrieve_loop_chain {compare : Key → Key → Int} {items : Addr → picohash_item}
    {key : Key} :
    ∀ {l : List Addr} {p : Option Addr} {fuel : Nat}, IsChain items p l → l.length < fuel →
      retrieve_loop compare items key fuel p =
        .ok (l.find? (fun a => decide (compare key (items a).key = 0)))
  | [], p, 0, _, hf => by simp at hf
  | [], p, fuel + 1, h, _ => by
    simp only [IsChain] at h
    subst h
    simp [retrieve_loop]
  | a :: l, p, 0, _, hf => by simp at hf
  | a :: l, p, fuel + 1, h, hf => by
    obtain ⟨hp, ht⟩ := h
    subst hp
    have hf1 : l.length < fuel := by simpa using hf
    by_cases hc : compare key (items a).key = 0
    · simp [retrieve_loop, hc, List.find?_cons]
    · simp [retrieve_loop, hc, List.find?_cons, retrieve_loop_chain ht hf1]

/-! ## Lemmas on the item count -/

theorem length_all_items (ch : Nat → List Addr) :
    ∀ n, (all_items ch n).length = chain_total ch n
  | 0 => rfl
  | n + 1 => by simp [all_items, chain_total, length_all_items ch n]

theorem mem_all_items {ch : Nat → List Addr} {a : Addr} :
    ∀ {n}, a ∈ all_items ch n ↔ ∃ i, i < n ∧ a ∈ ch i
  | 0 => by simp [all_items]
  | n + 1 => by
    simp only [all_items, List.mem_append, mem_all_items]
    constructor
    · rintro (⟨i, hi, ha⟩ | ha)
      · exact ⟨i, by omega, ha⟩
      · exact ⟨n, by omega, ha⟩
    · rintro ⟨i, hi, ha⟩
      by_cases hin : i = n
      · subst hin; exact Or.inr ha
      · exact Or.inl ⟨i, by omega, ha⟩

theorem chain_total_update_ge {ch : Nat → List Addr} {b : Nat} {l : List Addr} :
    ∀ {n}, n ≤ b → chain_total (Function.update ch b l) n = chain_total ch n
  | 0, _ => rfl
  | n + 1, h => by
    have hne : n ≠ b := by omega
    simp [chain_total, chain_total_update_ge (show n ≤ b by omega),
      Function.update_noteq hne]

theorem chain_total_update (ch : Nat → List Addr) {b : Nat} (l : List Addr) :
    ∀ {n}, b < n →
      chain_total (Function.update ch b l) n + (ch b).length = chain_total ch n + l.length
  | 0, h => by omega
  | n + 1, h => by
    by_cases hbn : b = n
    · subst hbn
      simp only [chain_total, Function.update_same, chain_total_update_ge (le_refl b)]
      omega
    · have hlt : b < n := by omega
      have ih := chain_total_update ch l hlt
      have hne : n ≠ b := fun h1 => hbn h1.symm
      simp only [chain_total, Function.update_noteq hne]
      omega

theorem nodup_all_items {ch : Nat → List Addr} :
    ∀ {n}, (∀ i, i < n → (ch i).Nodup) →
      (∀ i j, i < n → j < n → i ≠ j → ∀ a ∈ ch i, a ∉ ch j) → (all_items ch n).Nodup
  | 0, _, _ => List.nodup_nil
  | n + 1, hn, hd => by
    simp only [all_items]
    refine List.Nodup.append ?_ (hn n (by omega)) ?_
    · exact nodup_all_items (fun i hi => hn i (by omega))
        (fun i j hi hj hij => hd i j (by omega) (by omega) hij)
    · intro a ha hb
      obtain ⟨i, hi, hai⟩ := mem_all_items.1 ha
      exact hd i n (by omega) (by omega) (by omega) a hai hb

theorem length_lt_of_valid {l : List Addr} (hn : l.Nodup) (hv : ∀ a ∈ l, valid_ptr a) :
    l.length < UINT64_MOD := by
  have hsub : l.toFinset ⊆ Finset.Ico 1 UINT64_MOD := by
    intro a ha
    have := hv a (List.mem_toFinset.1 ha)
    simp only [Finset.mem_Ico]
    exact ⟨this.1, this.2⟩
  have hcard := Finset.card_le_card hsub
  rw [List.toFinset_card_of_nodup hn, Nat.card_Ico] at hcard
  have : 0 < UINT64_MOD := by unfold UINT64_MOD; positivity
  omega

theorem wf_all_nodup {m : Mem} {ch : Nat → List Addr} (h : WF m ch) :
    (all_items ch m.table.nb_bin).Nodup := by
  refine nodup_all_items (fun i hi => isChain_nodup (h.chain i hi)) ?_
  intro i j hi hj hij a ha hb
  exact hij ((h.home i hi a ha).symm.trans (h.home j hj a hb))

theorem wf_valid_all {m : Mem} {ch : Nat → List Addr} (h : WF m ch) :
    ∀ a ∈ all_items ch m.table.nb_bin, valid_ptr a := by
  intro a ha
  obtain ⟨i, hi, hai⟩ := mem_all_items.1 ha
  exact h.valid i hi a hai

theorem wf_count_lt {m : Mem} {ch : Nat → List Addr} (h : WF m ch) :
    m.table.count < UINT64_MOD := by
  rw [h.count, ← length_all_items]
  exact length_lt_of_valid (wf_all_nodup h) (wf_valid_all h)

theorem wf_count_succ_lt {m : Mem} {ch : Nat → List Addr} (h : WF m ch) {a : Addr}
    (hv : valid_ptr a) (hfresh : ∀ i, i < m.table.nb_bin → a ∉ ch i) :
    m.table.count + 1 < UINT64_MOD := by
  have hn : (a :: all_items ch m.table.nb_bin).Nodup := by
    refine List.nodup_cons.2 ⟨?_, wf_all_nodup h⟩
    intro ha
    obtain ⟨i, hi, hai⟩ := mem_all_items.1 ha
    exact hfresh i hi hai
  have hval : ∀ x ∈ a :: all_items ch m.table.nb_bin, valid_ptr x := by
    intro x hx
    rcases List.mem_cons.1 hx with h1 | h1
    · rw [h1]; exact hv
    · exact wf_valid_all h x h1
  have := length_lt_of_valid hn hval
  rw [h.count, ← length_all_items]
  simpa using this

theorem bin_of_lt {nb_bin : Nat} (hash : Nat) (h : 0 < nb_bin) : bin_of nb_bin hash < nb_bin :=
  lt_of_le_of_lt (Nat.mod_le _ _) (Nat.mod_lt _ h)

theorem bin_index_pos {nb_bin : Nat} (hash : Nat) (h : 0 < nb_bin) :
    bin_index nb_bin hash = .ok (bin_of nb_bin hash) := by
  simp [bin_index, Nat.pos_iff_ne_zero.1 h]

/-! ## Insertion keeps the invariant -/

theorem insert_spec {m : Mem} {ch : Nat → List Addr} (h : WF m ch) (hnb : 0 < m.table.nb_bin)
    {malloc : Option Addr} {key : Key} {a : Addr}
    (ho : obtain_item m.table malloc key = some a) (hv : valid_ptr a)
    (hfresh : ∀ i, i < m.table.nb_bin → a ∉ ch i) :
    ∃ m1, picohash_insert malloc m key = .ok (0, m1) ∧
      WF m1 (Function.update ch (bin_of m.table.nb_bin (key_hash m.table key))
        (a :: ch (bin_of m.table.nb_bin (key_hash m.table key)))) ∧
      SameConfig m.table m1.table ∧
      m1.table.count = m.table.count + 1 ∧
      m1.table.hash_bin = Function.update m.table.hash_bin
        (bin_of m.table.nb_bin (key_hash m.table key)) (some a) ∧
      m1.items a = picohash_item.mk (key_hash m.table key) key
        (m.table.hash_bin (bin_of m.table.nb_bin (key_hash m.table key))) ∧
      (∀ x, x ≠ a → m1.items x = m.items x) ∧
      m1.freed = m.freed := by
  have hb := bin_of_lt (key_hash m.table key) hnb
  have hcnt : (m.table.count + 1) % UINT64_MOD = m.table.count + 1 :=
    Nat.mod_eq_of_lt (wf_count_succ_lt h hv hfresh)
  generalize hbdef : bin_of m.table.nb_bin (key_hash m.table key) = b at hb ⊢
  refine ⟨{ m with
      items := Function.update m.items a
        { hash := key_hash m.table key, key := key, next_in_bin := m.table.hash_bin b }
      table :=
        { m.table with
          hash_bin := Function.update m.table.hash_bin b (some a)
          count := (m.table.count + 1) % UINT64_MOD } },
    ?_, ?_, ⟨rfl, rfl, rfl, rfl, rfl⟩, hcnt, rfl, ?_, ?_, rfl⟩
  · simp only [picohash_insert, bin_index_pos _ hnb, ho, hbdef]
  · constructor
    · intro i hi
      have hi1 : i < m.table.nb_bin := hi
      by_cases hib : i = b
      · subst hib
        simp only [Function.update_same]
        refine ⟨rfl, ?_⟩
        simp only [Function.update_same]
        refine isChain_congr ?_ (h.chain i hi1)
        intro x hx
        have hxa : x ≠ a := fun e => hfresh i hi1 (e ▸ hx)
        simp only [Function.update_noteq hxa]
      · simp only [Function.update_noteq hib]
        refine isChain_congr ?_ (h.chain i hi1)
        intro x hx
        have hxa : x ≠ a := fun e => hfresh i hi1 (e ▸ hx)
        simp only [Function.update_noteq hxa]
    · intro i hi x hx
      have hi1 : i < m.table.nb_bin := hi
      show bin_of m.table.nb_bin ((Function.update m.items a _ x).hash) = i
      by_cases hxa : x = a
      · subst hxa
        simp only [Function.update_same]
        by_cases hib : i = b
        · rw [hib, hbdef]
        · rw [Function.update_noteq hib] at hx
          exact absurd hx (hfresh i hi1)
      · rw [Function.update_noteq hxa]
        by_cases hib : i = b
        · subst hib
          rw [Function.update_same] at hx
          rcases List.mem_cons.1 hx with h1 | h1
          · exact absurd h1 hxa
          · exact h.home i hi1 x h1
        · rw [Function.update_noteq hib] at hx
          exact h.home i hi1 x hx
    · intro i hi x hx
      have hi1 : i < m.table.nb_bin := hi
      by_cases hib : i = b
      · subst hib
        rw [Function.update_same] at hx
        rcases List.mem_cons.1 hx with h1 | h1
        · rw [h1]; exact hv
        · exact h.valid i hi1 x h1
      · rw [Function.update_noteq hib] at hx
        exact h.valid i hi1 x hx
    · show (m.table.count + 1) % UINT64_MOD = chain_total _ m.table.nb_bin
      have := chain_total_update ch (a :: ch b) hb
      rw [hcnt, h.count]
      simp only [List.length_cons] at this
      omega
  · show Function.update m.items a _ a = _
    rw [Function.update_same]
  · intro x hx
    show Function.update m.items a _ x = _
    rw [Function.update_noteq hx]

theorem insert_fail {m : Mem} (hnb : 0 < m.table.nb_bin) {malloc : Option Addr} {key : Key}
    (ho : obtain_item m.table malloc key = none) :
    picohash_insert malloc m key = .ok (-1, m) := by
  simp only [picohash_insert, bin_index_pos _ hnb, ho]

/-! ## Deletion of an item keeps the invariant -/

theorem count_dec_pos {c : Nat} (h0 : 0 < c) : count_dec c + 1 = c := by
  unfold count_dec
  rw [if_neg (by omega)]
  omega

theorem count_dec_eq_mod {c : Nat} (h1 : c < UINT64_MOD) :
    count_dec c = (c + UINT64_MOD - 1) % UINT64_MOD := by
  unfold count_dec
  by_cases h0 : c = 0
  · subst h0
    rw [if_pos rfl, Nat.zero_add, Nat.mod_eq_of_lt (by omega)]
  · rw [if_neg h0]
    have : c + UINT64_MOD - 1 = (c - 1) + UINT64_MOD := by omega
    rw [this, Nat.add_mod_right, Nat.mod_eq_of_lt (by omega)]

theorem unlink_loop_absent (item : Addr) {m : Mem} :
    ∀ {l : List Addr} {p : Option Addr} {fuel : Nat}, IsChain m.items p l → item ∉ l.tail →
      l.length < fuel → unlink_loop item fuel m p = .ok m
  | [], p, 0, _, _, hf => by simp at hf
  | [], p, fuel + 1, h, _, _ => by
    simp only [IsChain] at h
    subst h
    simp [unlink_loop]
  | a :: l, p, 0, _, _, hf => by simp at hf
  | a :: l, p, fuel + 1, h, hn, hf => by
    obtain ⟨hp, ht⟩ := h
    subst hp
    have hf1 : l.length < fuel := by simpa using hf
    have hn1 : item ∉ l := by simpa using hn
    have hne : (m.items a).next_in_bin ≠ some item := by
      intro e
      rw [e] at ht
      cases l with
      | nil => simp [IsChain] at ht
      | cons x l1 =>
        have hx : some item = some x := ht.1
        have : item = x := by simpa using hx
        exact hn1 (this ▸ List.mem_cons_self _ _)
    have hn2 : item ∉ l.tail := fun hx => hn1 (List.mem_of_mem_tail hx)
    simp only [unlink_loop, hne, if_false]
    exact unlink_loop_absent item ht hn2 hf1

theorem unlink_loop_found {item : Addr} {m : Mem} :
    ∀ {l : List Addr} {p : Addr} {fuel : Nat}, IsChain m.items (some p) (p :: l) →
      p ≠ item → item ∈ l → (p :: l).length < fuel →
      ∃ q, q ∈ p :: l ∧ unlink_loop item fuel m (some p) = .ok (unlinked_after m item q) ∧
        IsChain (unlinked_after m item q).items (some p) ((p :: l).erase item)
  | [], _, _, _, _, hi, _ => by simp at hi
  | x :: l, p, 0, _, _, _, hf => by simp at hf
  | x :: l, p, fuel + 1, h, hp, hi, hf => by
    have hnd := isChain_nodup h
    obtain ⟨_, hx, ht⟩ := h
    have hf1 : (x :: l).length < fuel := by simpa using hf
    have hpx : p ∉ x :: l := (List.nodup_cons.1 hnd).1
    have hxl : x ∉ l := (List.nodup_cons.1 (List.nodup_cons.1 hnd).2).1
    have herase : (p :: x :: l).erase item = p :: (x :: l).erase item := by
      rw [List.erase_cons_tail (by simpa using hp)]
    by_cases hxi : x = item
    · subst hxi
      refine ⟨p, List.mem_cons_self _ _, ?_, ?_⟩
      · simp [unlink_loop, hx, unlinked_after]
      · rw [herase, List.erase_cons_head]
        refine ⟨rfl, ?_⟩
        simp only [unlinked_after, Function.update_same]
        refine isChain_congr ?_ ht
        intro y hy
        have hyp : y ≠ p := fun e => hpx (e ▸ List.mem_cons_of_mem _ hy)
        simp only [Function.update_noteq hyp]
    · have hi1 : item ∈ l := by
        rcases List.mem_cons.1 hi with h1 | h1
        · exact absurd h1.symm hxi
        · exact h1
      have hcx : IsChain m.items (some x) (x :: l) := ⟨rfl, ht⟩
      obtain ⟨q, hq, hrun, hch⟩ := unlink_loop_found hcx hxi hi1 hf1
      refine ⟨q, List.mem_cons_of_mem _ hq, ?_, ?_⟩
      · have hne : (m.items p).next_in_bin ≠ some item := by
          rw [hx]; intro e; exact hxi (by simpa using e)
        simp only [unlink_loop, hne, if_false]
        rw [hx]; exact hrun
      · rw [herase]
        refine ⟨rfl, ?_⟩
        have hqp : p ≠ q := fun e => hpx (e ▸ hq)
        simp only [unlinked_after, Function.update_noteq hqp]
        rw [hx]
        exact hch

theorem wf_unlinked {m : Mem} {ch : Nat → List Addr} (h : WF m ch) {b : Nat} {item : Addr}
    (m0 : Mem) (hb : b < m.table.nb_bin) (hmem : item ∈ ch b)
    (hnb : m0.table.nb_bin = m.table.nb_bin)
    (hcount : m0.table.count = count_dec m.table.count)
    (hbins : ∀ i, i ≠ b → m0.table.hash_bin i = m.table.hash_bin i)
    (hhash : ∀ x, (m0.items x).hash = (m.items x).hash)
    (hframe : ∀ x, x ∉ ch b → (m0.items x).next_in_bin = (m.items x).next_in_bin)
    (hchain : IsChain m0.items (m0.table.hash_bin b) ((ch b).erase item)) :
    WF m0 (Function.update ch b ((ch b).erase item)) ∧ m0.table.count + 1 = m.table.count := by
  have htot := chain_total_update ch ((ch b).erase item) hb
  rw [List.length_erase_of_mem hmem] at htot
  have hlen : 0 < (ch b).length := List.length_pos_of_mem hmem
  have hc0 : 0 < m.table.count := by rw [h.count]; omega
  have hdec := count_dec_pos hc0
  refine ⟨⟨?_, ?_, ?_, ?_⟩, by rw [hcount]; exact hdec⟩
  · intro i hi
    rw [hnb] at hi
    by_cases hib : i = b
    · subst hib
      rw [Function.update_same]
      exact hchain
    · rw [Function.update_noteq hib, hbins i hib]
      refine isChain_congr ?_ (h.chain i hi)
      intro x hx
      refine hframe x (fun hxb => hib ?_)
      exact (h.home i hi x hx).symm.trans (h.home b hb x hxb)
  · intro i hi x hx
    rw [hnb] at hi ⊢
    rw [hhash]
    by_cases hib : i = b
    · subst hib
      rw [Function.update_same] at hx
      exact h.home i hi x (List.mem_of_mem_erase hx)
    · rw [Function.update_noteq hib] at hx
      exact h.home i hi x hx
  · intro i hi x hx
    rw [hnb] at hi
    by_cases hib : i = b
    · subst hib
      rw [Function.update_same] at hx
      exact h.valid i hi x (List.mem_of_mem_erase hx)
    · rw [Function.update_noteq hib] at hx
      exact h.valid i hi x hx
  · rw [hnb, hcount]
    have := h.count
    omega

theorem release_item_table (m : Mem) (item : Addr) (flag : Bool) :
    (release_item m item flag).table = m.table := rfl

theorem release_item_items (m : Mem) (item : Addr) (flag : Bool) :
    (release_item m item flag).items = m.items := rfl

theorem wf_release {m : Mem} {ch : Nat → List Addr} (h : WF m ch) (item : Addr) (flag : Bool) :
    WF (release_item m item flag) ch :=
  ⟨h.chain, h.home, h.valid, h.count⟩

theorem release_item_freed {m m0 : Mem} {item : Addr} (flag : Bool)
    (hk : (m0.items item).key = (m.items item).key)
    (he : m0.table.picohash_key_to_item = m.table.picohash_key_to_item)
    (hf : m0.freed = m.freed) :
    (release_item m0 item flag).freed = (release_item m item flag).freed := by
  simp only [release_item, hk, he, hf]

theorem delete_item_found {m : Mem} {ch : Nat → List Addr} (h : WF m ch)
    (hnb : 0 < m.table.nb_bin) {item : Addr} {fuel : Nat} (flag : Bool)
    (hmem : item ∈ ch (bin_of m.table.nb_bin (m.items item).hash))
    (hf : (ch (bin_of m.table.nb_bin (m.items item).hash)).length < fuel) :
    ∃ m1, picohash_delete_item fuel m item flag = .ok m1 ∧
      WF m1 (Function.update ch (bin_of m.table.nb_bin (m.items item).hash)
        ((ch (bin_of m.table.nb_bin (m.items item).hash)).erase item)) ∧
      SameConfig m.table m1.table ∧
      m1.table.count + 1 = m.table.count ∧
      (∀ x, (m1.items x).key = (m.items x).key ∧ (m1.items x).hash = (m.items x).hash) ∧
      (∀ x, x ∉ ch (bin_of m.table.nb_bin (m.items item).hash) → m1.items x = m.items x) ∧
      (∀ j, j ≠ bin_of m.table.nb_bin (m.items item).hash →
        m1.table.hash_bin j = m.table.hash_bin j) ∧
      m1.freed = (release_item m item flag).freed := by
  have hb := bin_of_lt (m.items item).hash hnb
  generalize hbdef : bin_of m.table.nb_bin (m.items item).hash = b at hb hmem hf ⊢
  have hch := h.chain b hb
  cases hl : ch b with
  | nil => rw [hl] at hmem; simp at hmem
  | cons p l =>
    rw [hl] at hch hmem hf
    have hhead : m.table.hash_bin b = some p := hch.1
    by_cases hpi : p = item
    · subst hpi
      have hchain : IsChain (unlinked_head m p b).items ((unlinked_head m p b).table.hash_bin b)
          ((ch b).erase p) := by
        rw [hl, List.erase_cons_head]
        simp only [unlinked_head, Function.update_same]
        exact hch.2
      have hwf := wf_unlinked h (unlinked_head m p b) hb
        (by rw [hl]; exact List.mem_cons_self _ _)
        (by simp only [unlinked_head]) (by simp only [unlinked_head])
        (fun i hi => by simp only [unlinked_head, Function.update_noteq hi])
        (fun x => by simp only [unlinked_head]) (fun x _ => by simp only [unlinked_head]) hchain
      rw [hl] at hwf
      refine ⟨release_item (unlinked_head m p b) p flag, ?_, wf_release hwf.1 p flag, ?_,
        ?_, fun x => ?_, fun x _ => ?_, fun j hj => ?_, release_item_freed flag ?_ ?_ ?_⟩
      · simp only [picohash_delete_item, bin_index_pos _ hnb, hbdef, hhead, if_true,
          unlinked_head]
      · simp only [SameConfig, release_item_table, unlinked_head, and_self]
      · rw [release_item_table]; exact hwf.2
      · simp only [release_item_items, unlinked_head, and_self]
      · simp only [release_item_items, unlinked_head]
      · simp only [release_item_table, unlinked_head, Function.update_noteq hj]
      · simp only [unlinked_head]
      · simp only [unlinked_head]
      · simp only [unlinked_head]
    · have hmem1 : item ∈ l := by
        rcases List.mem_cons.1 hmem with h1 | h1
        · exact absurd h1.symm hpi
        · exact h1
      have hcp : IsChain m.items (some p) (p :: l) := ⟨rfl, hch.2⟩
      obtain ⟨q, hq, hrun, hch1⟩ := unlink_loop_found hcp hpi hmem1 hf
      have hitems : ∀ x, x ≠ q → (unlinked_after m item q).items x = m.items x := by
        intro x hx
        simp only [unlinked_after, Function.update_noteq hx]
      have hkh : ∀ x, ((unlinked_after m item q).items x).key = (m.items x).key ∧
          ((unlinked_after m item q).items x).hash = (m.items x).hash := by
        intro x
        by_cases hx : x = q
        · subst hx; simp only [unlinked_after, Function.update_same, and_self]
        · rw [hitems x hx]; exact ⟨rfl, rfl⟩
      have hchain : IsChain (unlinked_after m item q).items
          ((unlinked_after m item q).table.hash_bin b) ((ch b).erase item) := by
        rw [hl]
        simp only [unlinked_after] at hch1 ⊢
        rw [hhead]
        exact hch1
      have hwf := wf_unlinked h (unlinked_after m item q) hb (by rw [hl]; exact hmem)
        (by simp only [unlinked_after]) (by simp only [unlinked_after])
        (fun i _ => by simp only [unlinked_after]) (fun x => (hkh x).2)
        (fun x hx => by rw [hitems x (fun e => hx (by rw [hl, e]; exact hq))]) hchain
      rw [hl] at hwf
      refine ⟨release_item (unlinked_after m item q) item flag, ?_, wf_release hwf.1 item flag,
        ?_, ?_, fun x => ?_, fun x hx => ?_, fun j _ => ?_,
        release_item_freed flag (hkh item).1 (by simp only [unlinked_after])
          (by simp only [unlinked_after])⟩
      · have hne : some p ≠ some item := fun e => hpi (by simpa using e)
        simp only [picohash_delete_item, bin_index_pos _ hnb, hbdef, hhead, hne, if_false, hrun]
      · simp only [SameConfig, release_item_table, unlinked_after, and_self]
      · rw [release_item_table]; exact hwf.2
      · rw [release_item_items]; exact hkh x
      · rw [release_item_items]; exact hitems x (fun e => hx (e ▸ hq))
      · simp only [release_item_table, unlinked_after]

theorem delete_item_absent {m : Mem} {ch : Nat → List Addr} (h : WF m ch)
    (hnb : 0 < m.table.nb_bin) {item : Addr} {fuel : Nat} (flag : Bool)
    (hmem : item ∉ ch (bin_of m.table.nb_bin (m.items item).hash))
    (hf : (ch (bin_of m.table.nb_bin (m.items item).hash)).length < fuel) :
    picohash_delete_item fuel m item flag = .ok (release_item m item flag) := by
  have hb := bin_of_lt (m.items item).hash hnb
  generalize hbdef : bin_of m.table.nb_bin (m.items item).hash = b at hb hmem hf ⊢
  have hch := h.chain b hb
  have hne : m.table.hash_bin b ≠ some item := by
    intro e
    cases hl : ch b with
    | nil => rw [hl] at hch; simp only [IsChain] at hch; rw [hch] at e; simp at e
    | cons p l =>
      rw [hl] at hch
      have : some p = some item := hch.1.symm.trans e
      have hpi : p = item := by simpa using this
      exact hmem (by rw [hl, hpi]; exact List.mem_cons_self _ _)
  have hrun := unlink_loop_absent item hch
    (fun hx => hmem (List.mem_of_mem_tail hx)) hf
  simp only [picohash_delete_item, bin_index_pos _ hnb, hbdef, hne, if_false, hrun]

/-! ## Creation -/

theorem create_ex_eq {mb : Nat → Bool} {nb_bin : Nat} (hash : Key → List Nat → Nat)
    (compare : Key → Key → Int) (k2i : Option (Key → Option Addr)) (seed : Option (List Nat))
    (hfit : SIZEOF_ITEM_PTR * nb_bin < UINT64_MOD)
    (hmb : mb (SIZEOF_ITEM_PTR * nb_bin) = true) :
    picohash_create_ex true mb nb_bin hash compare k2i seed =
      .ok (some (created_table nb_bin hash compare k2i seed)) := by
  have hdiv : SIZEOF_ITEM_PTR * nb_bin / SIZEOF_ITEM_PTR = nb_bin :=
    Nat.mul_div_cancel_left nb_bin (by decide)
  simp only [picohash_create_ex, Nat.mod_eq_of_lt hfit, hdiv, hmb, created_table]
  rfl

theorem create_ex_some {mt : Bool} {mb : Nat → Bool} {nb_bin : Nat}
    {hash : Key → List Nat → Nat} {compare : Key → Key → Int}
    {k2i : Option (Key → Option Addr)} {seed : Option (List Nat)} {t : picohash_table}
    (h : picohash_create_ex mt mb nb_bin hash compare k2i seed = .ok (some t)) :
    t = created_table nb_bin hash compare k2i seed := by
  unfold picohash_create_ex at h
  by_cases h1 : mt = false
  · rw [if_pos h1] at h
    cases h
  · rw [if_neg h1] at h
    dsimp only at h
    split_ifs at h <;> first
      | (cases h; done)
      | (cases h; rfl)

theorem wf_created (nb_bin : Nat) (hash : Key → List Nat → Nat) (compare : Key → Key → Int)
    (k2i : Option (Key → Option Addr)) (seed : Option (List Nat))
    (items : Addr → picohash_item) (freed : List Freed) :
    WF ⟨created_table nb_bin hash compare k2i seed, items, freed⟩ (fun _ => []) := by
  refine ⟨fun i _ => rfl, fun i _ a ha => by simp at ha, fun i _ a ha => by simp at ha, ?_⟩
  show 0 = chain_total (fun _ => []) nb_bin
  induction nb_bin with
  | zero => rfl
  | succ n ih => simp [chain_total, ← ih]

/-! ## Lookup on a table that satisfies the invariant -/

theorem key_hash_config {t t1 : picohash_table} (h : SameConfig t t1) (k : Key) :
    key_hash t1 k = key_hash t k := by
  obtain ⟨_, hh, _, _, hs⟩ := h
  simp only [key_hash, hh, hs]

theorem retrieve_spec {m : Mem} {ch : Nat → List Addr} (h : WF m ch) (hnb : 0 < m.table.nb_bin)
    (key : Key) {fuel : Nat}
    (hf : (ch (bin_of m.table.nb_bin (key_hash m.table key))).length < fuel) :
    picohash_retrieve fuel m key =
      .ok ((ch (bin_of m.table.nb_bin (key_hash m.table key))).find?
        (fun a => decide (m.table.picohash_compare key (m.items a).key = 0))) := by
  simp only [picohash_retrieve, bin_index_pos _ hnb]
  exact retrieve_loop_chain (h.chain _ (bin_of_lt _ hnb)) hf

/-! ## Destruction with a 32-bit loop counter -/

theorem delete_chain_error (t : picohash_table) (items : Addr → picohash_item) (flag : Bool) :
    ∀ (fuel : Nat) (p : Option Addr) (freed : List Freed) (e : Fault),
      delete_chain t items flag fuel p freed = .error e → e = Fault.out_of_fuel
  | 0, _, _, e, h => by
    simp only [delete_chain, Except.error.injEq] at h
    exact h.symm
  | _ + 1, none, _, e, h => by simp [delete_chain] at h
  | fuel + 1, some a, freed, e, h => by
    simp only [delete_chain] at h
    exact delete_chain_error t items flag fuel _ _ e h

theorem delete_bins_wide {m : Mem} (flag : Bool) (inner : Nat)
    (hwide : UINT32_MOD ≤ m.table.nb_bin) :
    ∀ (fuel i : Nat) (freed : List Freed), i < UINT32_MOD →
      delete_bins inner m flag fuel i freed = .error Fault.out_of_fuel
  | 0, _, _, _ => rfl
  | fuel + 1, i, freed, hi => by
    have hlt : i < m.table.nb_bin := lt_of_lt_of_le hi hwide
    simp only [delete_bins, hlt, if_true]
    cases hc : delete_chain m.table m.items flag inner (m.table.hash_bin i) freed with
    | error e =>
      rw [delete_chain_error _ _ _ _ _ _ e hc]
    | ok freed1 =>
      exact delete_bins_wide flag inner hwide fuel _ freed1
        (Nat.mod_lt _ (by unfold UINT32_MOD; positivity))

/-! ## More fuel does not change a result -/

theorem retrieve_loop_mono {compare : Key → Key → Int} {items : Addr → picohash_item}
    {key : Key} (k : Nat) :
    ∀ (fuel : Nat) (p : Option Addr) (r : Option Addr),
      retrieve_loop compare items key fuel p = .ok r →
      retrieve_loop compare items key (fuel + k) p = .ok r
  | 0, _, _, h => by simp [retrieve_loop] at h
  | fuel + 1, none, r, h => by
    rw [Nat.add_right_comm]
    simpa [retrieve_loop] using h
  | fuel + 1, some a, r, h => by
    rw [Nat.add_right_comm]
    simp only [retrieve_loop] at h ⊢
    by_cases hc : compare key (items a).key = 0
    · rw [if_pos hc] at h ⊢; exact h
    · rw [if_neg hc] at h ⊢
      exact retrieve_loop_mono k fuel _ r h

theorem unlink_loop_mono (item : Addr) (k : Nat) :
    ∀ (fuel : Nat) (m : Mem) (p : Option Addr) (r : Mem),
      unlink_loop item fuel m p = .ok r → unlink_loop item (fuel + k) m p = .ok r
  | 0, _, _, _, h => by simp [unlink_loop] at h
  | fuel + 1, m, none, r, h => by
    rw [Nat.add_right_comm]
    simpa [unlink_loop] using h
  | fuel + 1, m, some a, r, h => by
    rw [Nat.add_right_comm]
    simp only [unlink_loop] at h ⊢
    by_cases hc : (m.items a).next_in_bin = some item
    · rw [if_pos hc] at h ⊢; exact h
    · rw [if_neg hc] at h ⊢
      exact unlink_loop_mono item k fuel m _ r h

theorem retrieve_mono {fuel : Nat} {m : Mem} {key : Key} {r : Option Addr} (k : Nat)
    (h : picohash_retrieve fuel m key = .ok r) : picohash_retrieve (fuel + k) m key = .ok r := by
  unfold picohash_retrieve at h ⊢
  cases hb : bin_index m.table.nb_bin (key_hash m.table key) with
  | error e => rw [hb] at h; cases h
  | ok bin =>
    rw [hb] at h
    exact retrieve_loop_mono k fuel _ r h

theorem delete_item_mono {fuel : Nat} {m : Mem} {item : Addr} {flag : Bool} {r : Mem}
    (k : Nat) (h : picohash_delete_item fuel m item flag = .ok r) :
    picohash_delete_item (fuel + k) m item flag = .ok r := by
  unfold picohash_delete_item at h ⊢
  cases hb : bin_index m.table.nb_bin (m.items item).hash with
  | error e => rw [hb] at h; cases h
  | ok bin =>
    rw [hb] at h
    dsimp only at h ⊢
    by_cases hh : m.table.hash_bin bin = some item
    · rw [if_pos hh] at h ⊢; exact h
    · rw [if_neg hh] at h ⊢
      cases hu : unlink_loop item fuel m (m.table.hash_bin bin) with
      | error e => rw [hu] at h; cases h
      | ok m0 =>
        rw [hu] at h
        rw [unlink_loop_mono item k fuel m _ m0 hu]
        exact h

theorem insert_zero_bins {m : Mem} (malloc : Option Addr) (key : Key)
    (h : m.table.nb_bin = 0) : picohash_insert malloc m key = .error Fault.div_by_zero := by
  simp only [picohash_insert, bin_index, h, if_true]

theorem delete_item_zero_bins {m : Mem} (fuel : Nat) (item : Addr) (flag : Bool)
    (h : m.table.nb_bin = 0) :
    picohash_delete_item fuel m item flag = .error Fault.div_by_zero := by
  simp only [picohash_delete_item, bin_index, h, if_true]

theorem retrieve_zero_bins {m : Mem} (fuel : Nat) (key : Key)
    (h : m.table.nb_bin = 0) : picohash_retrieve fuel m key = .error Fault.div_by_zero := by
  simp only [picohash_retrieve, bin_index, h, if_true]

/-! ## Every call keeps the invariant -/

theorem fresh_of_wf {m : Mem} {ch : Nat → List Addr} (h : WF m ch) {a : Addr}
    (hf : fresh_item m a) : ∀ i, i < m.table.nb_bin → a ∉ ch i :=
  fun i hi => hf i hi (ch i) (h.chain i hi)

theorem fresh_item_of_wf {m : Mem} {ch : Nat → List Addr} (h : WF m ch) {a : Addr}
    (hf : ∀ i, i < m.table.nb_bin → a ∉ ch i) : fresh_item m a := by
  intro i hi l hl
  rw [isChain_unique hl (h.chain i hi)]
  exact hf i hi

theorem wf_step_insert {m : Mem} {ch : Nat → List Addr} (h : WF m ch) {malloc : Option Addr}
    {key : Key} {r : Int} {m1 : Mem} (hadm : fresh_contract m malloc key)
    (hrun : picohash_insert malloc m key = .ok (r, m1)) :
    (∃ ch1, WF m1 ch1) ∧
    ((r = 0 ∧ m1.table.count = m.table.count + 1) ∨
     (r = -1 ∧ m1.table.count = m.table.count)) := by
  have hnb : 0 < m.table.nb_bin := by
    refine Nat.pos_of_ne_zero (fun h0 => ?_)
    rw [insert_zero_bins malloc key h0] at hrun
    cases hrun
  cases ho : obtain_item m.table malloc key with
  | none =>
    rw [insert_fail hnb ho] at hrun
    simp only [Except.ok.injEq, Prod.mk.injEq] at hrun
    obtain ⟨hr, hm⟩ := hrun
    subst hm
    exact ⟨⟨ch, h⟩, Or.inr ⟨hr.symm, rfl⟩⟩
  | some a =>
    obtain ⟨hv, hfr⟩ := hadm a ho
    obtain ⟨m2, hrun2, hwf2, _, hcount, _⟩ := insert_spec h hnb ho hv (fresh_of_wf h hfr)
    rw [hrun2] at hrun
    simp only [Except.ok.injEq, Prod.mk.injEq] at hrun
    obtain ⟨hr, hm⟩ := hrun
    subst hm
    exact ⟨⟨_, hwf2⟩, Or.inl ⟨hr.symm, hcount⟩⟩

theorem wf_step_delete_item {m : Mem} {ch : Nat → List Addr} (h : WF m ch) {fuel : Nat}
    {item : Addr} {flag : Bool} {m1 : Mem}
    (hrun : picohash_delete_item fuel m item flag = .ok m1) :
    (∃ ch1, WF m1 ch1) ∧
    ((item ∈ ch (bin_of m.table.nb_bin (m.items item).hash) ∧
        m1.table.count + 1 = m.table.count) ∨
     (item ∉ ch (bin_of m.table.nb_bin (m.items item).hash) ∧
        m1.table.count = m.table.count)) := by
  have hnb : 0 < m.table.nb_bin := by
    refine Nat.pos_of_ne_zero (fun h0 => ?_)
    rw [delete_item_zero_bins fuel item flag h0] at hrun
    cases hrun
  have hbig := delete_item_mono
    ((ch (bin_of m.table.nb_bin (m.items item).hash)).length + 1) hrun
  by_cases hmem : item ∈ ch (bin_of m.table.nb_bin (m.items item).hash)
  · obtain ⟨m2, hrun2, hwf2, _, hcount, _⟩ :=
      delete_item_found h hnb flag hmem
        (show (ch (bin_of m.table.nb_bin (m.items item).hash)).length <
          fuel + ((ch (bin_of m.table.nb_bin (m.items item).hash)).length + 1) by omega)
    rw [hrun2] at hbig
    simp only [Except.ok.injEq] at hbig
    subst hbig
    exact ⟨⟨_, hwf2⟩, Or.inl ⟨hmem, hcount⟩⟩
  · have hrun2 := delete_item_absent h hnb flag hmem
        (show (ch (bin_of m.table.nb_bin (m.items item).hash)).length <
          fuel + ((ch (bin_of m.table.nb_bin (m.items item).hash)).length + 1) by omega)
    rw [hrun2] at hbig
    simp only [Except.ok.injEq] at hbig
    subst hbig
    exact ⟨⟨ch, wf_release h item flag⟩, Or.inr ⟨hmem, rfl⟩⟩

theorem delete_key_zero_bins {m : Mem} (fuel : Nat) (key : Key) (flag : Bool)
    (h : m.table.nb_bin = 0) :
    picohash_delete_key fuel m key flag = .error Fault.div_by_zero := by
  simp only [picohash_delete_key, retrieve_zero_bins fuel key h]

theorem retrieved_in_home {m : Mem} {ch : Nat → List Addr} (h : WF m ch) {fuel : Nat}
    {key : Key} {a : Addr} (hr : picohash_retrieve fuel m key = .ok (some a)) :
    a ∈ ch (bin_of m.table.nb_bin (m.items a).hash) ∧
    a ∈ ch (bin_of m.table.nb_bin (key_hash m.table key)) ∧
    m.table.picohash_compare key (m.items a).key = 0 := by
  have hnb : 0 < m.table.nb_bin := by
    refine Nat.pos_of_ne_zero (fun h0 => ?_)
    rw [retrieve_zero_bins fuel key h0] at hr
    cases hr
  have hbig := retrieve_mono
    ((ch (bin_of m.table.nb_bin (key_hash m.table key))).length + 1) hr
  rw [retrieve_spec h hnb key (by omega)] at hbig
  simp only [Except.ok.injEq] at hbig
  have hmem := List.mem_of_find?_eq_some hbig
  have hp := List.find?_some hbig
  have hhome := h.home _ (bin_of_lt _ hnb) a hmem
  refine ⟨by rw [hhome]; exact hmem, hmem, by simpa using hp⟩

theorem wf_step_delete_key {m : Mem} {ch : Nat → List Addr} (h : WF m ch) {fuel : Nat}
    {key : Key} {flag : Bool} {m1 : Mem}
    (hrun : picohash_delete_key fuel m key flag = .ok m1) :
    (∃ ch1, WF m1 ch1) ∧
    ((∃ a, picohash_retrieve fuel m key = .ok (some a) ∧
        m1.table.count + 1 = m.table.count) ∨
     (picohash_retrieve fuel m key = .ok none ∧ m1.table.count = m.table.count)) := by
  unfold picohash_delete_key at hrun
  cases hr : picohash_retrieve fuel m key with
  | error e => rw [hr] at hrun; cases hrun
  | ok found =>
    rw [hr] at hrun
    cases found with
    | none =>
      dsimp only at hrun
      cases flag with
      | false =>
        simp only [Bool.false_eq_true, if_false, Except.ok.injEq] at hrun
        subst hrun
        exact ⟨⟨ch, h⟩, Or.inr ⟨rfl, rfl⟩⟩
      | true =>
        simp only [if_true, Except.ok.injEq] at hrun
        subst hrun
        exact ⟨⟨ch, ⟨h.chain, h.home, h.valid, h.count⟩⟩, Or.inr ⟨rfl, rfl⟩⟩
    | some a =>
      dsimp only at hrun
      obtain ⟨hwf1, hcases⟩ := wf_step_delete_item h hrun
      refine ⟨hwf1, Or.inl ⟨a, rfl, ?_⟩⟩
      rcases hcases with ⟨_, hc⟩ | ⟨habs, _⟩
      · exact hc
      · exact absurd (retrieved_in_home h hr).1 habs

theorem reachable_wf {m : Mem} (hreach : Reachable fresh_contract m) : ∃ ch, WF m ch := by
  induction hreach with
  | create mt mb nb_bin hash compare k2i seed t items freed hc =>
    rw [create_ex_some hc]
    exact ⟨_, wf_created nb_bin hash compare k2i seed items freed⟩
  | insert m malloc key r m1 _ hadm hrun ih =>
    obtain ⟨ch, hwf⟩ := ih
    exact (wf_step_insert hwf hadm hrun).1
  | delete_item m fuel item flag m1 _ hrun ih =>
    obtain ⟨ch, hwf⟩ := ih
    exact (wf_step_delete_item hwf hrun).1
  | delete_key m fuel key flag m1 _ hrun ih =>
    obtain ⟨ch, hwf⟩ := ih
    exact (wf_step_delete_key hwf hrun).1

theorem isChain_self_loop {items : Addr → picohash_item} {a : Addr}
    (h : (items a).next_in_bin = some a) : ∀ l, ¬ IsChain items (some a) l
  | [] => fun hc => by simp [IsChain] at hc
  | b :: l => fun hc => by
    obtain ⟨hb, ht⟩ := hc
    have hab : a = b := by simpa using hb
    subst hab
    rw [h] at ht
    exact isChain_self_loop h l ht

/-! ## Insertion of a list of keys with distinct items -/

theorem chain_total_nil : ∀ n, chain_total (fun _ => []) n = 0
  | 0 => rfl
  | n + 1 => by simp [chain_total, chain_total_nil n]

theorem length_le_chain_total (ch : Nat → List Addr) :
    ∀ {n i}, i < n → (ch i).length ≤ chain_total ch n
  | 0, _, h => by omega
  | n + 1, i, h => by
    simp only [chain_total]
    by_cases hin : i = n
    · subst hin; omega
    · have := length_le_chain_total ch (show i < n by omega)
      omega

theorem inserted_empty {m0 : Mem} (h : WF m0 (fun _ => [])) :
    Inserted m0.table m0 (fun _ => []) [] :=
  ⟨h, ⟨rfl, rfl, rfl, rfl, rfl⟩, fun _ _ a ha => by simp at ha, fun p hp => by simp at hp,
    by rw [h.count, chain_total_nil]; rfl⟩

theorem insert_all_spec (t0 : picohash_table) (hnb : 0 < t0.nb_bin) :
    ∀ (rest done : List (Addr × Key)) (m : Mem) (ch : Nat → List Addr),
      Inserted t0 m ch done →
      (∀ p ∈ rest, obtain_item t0 (some p.1) p.2 = some p.1) →
      ((done ++ rest).map Prod.fst).Nodup →
      (∀ p ∈ rest, valid_ptr p.1) →
      ∃ m1 ch1, insert_all m rest = .ok (List.replicate rest.length 0, m1) ∧
        Inserted t0 m1 ch1 (done ++ rest)
  | [], done, m, ch, hins, _, _, _ => ⟨m, ch, rfl, by rw [List.append_nil]; exact hins⟩
  | p :: rest, done, m, ch, hins, hobt, hnd, hval => by
    obtain ⟨a, key⟩ := p
    have hnbm : m.table.nb_bin = t0.nb_bin := hins.config.1
    have hnbp : 0 < m.table.nb_bin := by rw [hnbm]; exact hnb
    have hkh : ∀ k, key_hash m.table k = key_hash t0 k := key_hash_config hins.config
    have ho : obtain_item m.table (some a) key = some a := by
      have := hobt (a, key) (List.mem_cons_self _ _)
      simpa only [obtain_item, hins.config.2.2.2.1] using this
    have hnd1 : a ∉ done.map Prod.fst := by
      rw [List.map_append, List.map_cons] at hnd
      have := (List.nodup_append.1 hnd).2.2
      intro hx
      exact this hx (List.mem_cons_self _ _)
    have hfresh : ∀ i, i < m.table.nb_bin → a ∉ ch i := by
      intro i hi hx
      obtain ⟨k, hk⟩ := hins.known i hi a hx
      exact hnd1 (List.mem_map.2 ⟨(a, k), hk, rfl⟩)
    obtain ⟨m1, hrun, hwf1, hcfg1, hcount1, _, hit1, hothers1, _⟩ :=
      insert_spec hins.wf hnbp ho (hval (a, key) (List.mem_cons_self _ _)) hfresh
    rw [hnbm, hkh] at hwf1 hit1
    generalize hb : bin_of t0.nb_bin (key_hash t0 key) = b at hwf1 hit1
    have hnb1 : m1.table.nb_bin = t0.nb_bin := hcfg1.1.trans hnbm
    have hins1 : Inserted t0 m1 (Function.update ch b (a :: ch b)) (done ++ [(a, key)]) := by
      refine ⟨hwf1, ?_, ?_, ?_, ?_⟩
      · obtain ⟨c1, c2, c3, c4, c5⟩ := hins.config
        obtain ⟨d1, d2, d3, d4, d5⟩ := hcfg1
        exact ⟨d1.trans c1, d2.trans c2, d3.trans c3, d4.trans c4, d5.trans c5⟩
      · intro i hi x hx
        rw [hnb1, ← hnbm] at hi
        by_cases hib : i = b
        · rw [hib, Function.update_same] at hx
          rcases List.mem_cons.1 hx with h1 | h1
          · exact ⟨key, by rw [h1]; simp⟩
          · obtain ⟨k, hk⟩ := hins.known b (hib ▸ hi) x h1
            exact ⟨k, List.mem_append_left _ hk⟩
        · rw [Function.update_noteq hib] at hx
          obtain ⟨k, hk⟩ := hins.known i hi x hx
          exact ⟨k, List.mem_append_left _ hk⟩
      · intro q hq
        rcases List.mem_append.1 hq with h1 | h1
        · obtain ⟨hq1, hq2, hq3⟩ := hins.placed q h1
          have hqa : q.1 ≠ a := fun e => hnd1 (List.mem_map.2 ⟨q, h1, e⟩)
          rw [hothers1 q.1 hqa]
          refine ⟨?_, hq2, hq3⟩
          by_cases hqb : bin_of t0.nb_bin (key_hash t0 q.2) = b
          · rw [hqb, Function.update_same]
            rw [hqb] at hq1
            exact List.mem_cons_of_mem _ hq1
          · rw [Function.update_noteq hqb]
            exact hq1
        · have hqe : q = (a, key) := by simpa using h1
          subst hqe
          rw [hit1]
          refine ⟨?_, rfl, rfl⟩
          show a ∈ Function.update ch b (a :: ch b) (bin_of t0.nb_bin (key_hash t0 key))
          rw [hb, Function.update_same]
          exact List.mem_cons_self _ _
      · rw [hcount1, hins.count, List.length_append]
        rfl
    have hnd2 : (((done ++ [(a, key)]) ++ rest).map Prod.fst).Nodup := by
      rw [List.append_assoc]; exact hnd
    obtain ⟨m2, ch2, hrun2, hins2⟩ :=
      insert_all_spec t0 hnb rest (done ++ [(a, key)]) m1 _ hins1
        (fun q hq => hobt q (List.mem_cons_of_mem _ hq)) hnd2
        (fun q hq => hval q (List.mem_cons_of_mem _ hq))
    refine ⟨m2, ch2, ?_, ?_⟩
    · simp only [insert_all, hrun, hrun2, List.length_cons, List.replicate_succ]
    · rw [List.append_assoc] at hins2
      exact hins2

theorem find_unique {P : Addr → Bool} {a : Addr} :
    ∀ {l : List Addr}, a ∈ l → P a = true → (∀ x ∈ l, x ≠ a → P x = false) →
      l.find? P = some a
  | [], h, _, _ => by simp at h
  | x :: l, h, hp, hu => by
    by_cases hx : x = a
    · subst hx
      simp [List.find?_cons, hp]
    · have hpx := hu x (List.mem_cons_self _ _) hx
      have hal : a ∈ l := by
        rcases List.mem_cons.1 h with h1 | h1
        · exact absurd h1.symm hx
        · exact h1
      simp only [List.find?_cons, hpx]
      exact find_unique hal hp (fun y hy => hu y (List.mem_cons_of_mem _ hy))

theorem retrieve_unique {m : Mem} {ch : Nat → List Addr} (h : WF m ch)
    (hnb : 0 < m.table.nb_bin) (key : Key) {a : Addr} {fuel b : Nat}
    (hb : bin_of m.table.nb_bin (key_hash m.table key) = b)
    (hmem : a ∈ ch b) (hmatch : m.table.picohash_compare key (m.items a).key = 0)
    (huniq : ∀ x ∈ ch b, x ≠ a → m.table.picohash_compare key (m.items x).key ≠ 0)
    (hf : (ch b).length < fuel) : picohash_retrieve fuel m key = .ok (some a) := by
  subst hb
  rw [retrieve_spec h hnb key hf]
  congr 1
  exact find_unique hmem (by simpa using hmatch) (fun x hx hxa => by simpa using huniq x hx hxa)

theorem retrieve_absent {m : Mem} {ch : Nat → List Addr} (h : WF m ch)
    (hnb : 0 < m.table.nb_bin) (key : Key) {fuel b : Nat}
    (hb : bin_of m.table.nb_bin (key_hash m.table key) = b)
    (hnone : ∀ x ∈ ch b, m.table.picohash_compare key (m.items x).key ≠ 0)
    (hf : (ch b).length < fuel) : picohash_retrieve fuel m key = .ok none := by
  subst hb
  rw [retrieve_spec h hnb key hf]
  congr 1
  rw [List.find?_eq_none]
  intro x hx
  simpa using hnone x hx

/-! ## Destruction of a table with fewer than `2^32` buckets -/

theorem bin_of_eq_mod {nb_bin : Nat} (hash : Nat) (h0 : 0 < nb_bin) (h : nb_bin ≤ UINT32_MOD) :
    bin_of nb_bin hash = hash % nb_bin :=
  Nat.mod_eq_of_lt (lt_of_lt_of_le (Nat.mod_lt _ h0) h)

theorem delete_chain_spec (t : picohash_table) (items : Addr → picohash_item) (flag : Bool) :
    ∀ (l : List Addr) (p : Option Addr) (fuel : Nat) (freed : List Freed),
      IsChain items p l → l.length < fuel →
      delete_chain t items flag fuel p freed = .ok (freed ++ chain_frees t items flag l)
  | [], p, 0, _, _, hf => by simp at hf
  | [], p, fuel + 1, freed, h, _ => by
    simp only [IsChain] at h
    subst h
    simp [delete_chain, chain_frees]
  | a :: l, p, 0, _, _, hf => by simp at hf
  | a :: l, p, fuel + 1, freed, h, hf => by
    obtain ⟨hp, ht⟩ := h
    subst hp
    have hf1 : l.length < fuel := by simpa using hf
    simp only [delete_chain]
    rw [delete_chain_spec t items flag l _ fuel _ ht hf1]
    congr 1
    simp only [chain_frees, item_frees]
    cases t.picohash_key_to_item <;> cases flag <;> simp

theorem delete_bins_spec {m : Mem} {ch : Nat → List Addr} (flag : Bool) {inner : Nat}
    (hchain : ∀ i, i < m.table.nb_bin → IsChain m.items (m.table.hash_bin i) (ch i))
    (hinner : ∀ i, i < m.table.nb_bin → (ch i).length < inner)
    (hnarrow : m.table.nb_bin < UINT32_MOD) :
    ∀ (len i fuel : Nat) (freed : List Freed), i + len = m.table.nb_bin → len < fuel →
      delete_bins inner m flag fuel i freed =
        .ok (freed ++ bin_frees m.table m.items flag ch i len)
  | _, _, 0, _, _, hf => by omega
  | 0, i, fuel + 1, freed, hi, _ => by
    have : ¬ i < m.table.nb_bin := by omega
    simp [delete_bins, this, bin_frees]
  | len + 1, i, fuel + 1, freed, hi, hf => by
    have hlt : i < m.table.nb_bin := by omega
    have hwrap : (i + 1) % UINT32_MOD = i + 1 := Nat.mod_eq_of_lt (by omega)
    simp only [delete_bins, hlt, if_true,
      delete_chain_spec m.table m.items flag (ch i) _ inner freed (hchain i hlt) (hinner i hlt),
      hwrap]
    rw [delete_bins_spec flag hchain hinner hnarrow len (i + 1) fuel _ (by omega) (by omega)]
    simp only [bin_frees, List.append_assoc]

theorem chain_total_eq_bin_items (ch : Nat → List Addr) :
    ∀ n, chain_total ch n = (bin_items ch 0 n).length := by
  have hgen : ∀ len start, (bin_items ch start (len + 1)).length =
      (bin_items ch start len).length + (ch (start + len)).length := by
    intro len
    induction len with
    | zero => intro start; simp [bin_items]
    | succ k ih =>
      intro start
      have h1 := ih (start + 1)
      have hidx : start + 1 + k = start + (k + 1) := by omega
      rw [hidx] at h1
      have h2 : (bin_items ch start (k + 1 + 1)).length =
          (ch start).length + (bin_items ch (start + 1) (k + 1)).length := by
        simp [bin_items]
      have h3 : (bin_items ch start (k + 1)).length =
          (ch start).length + (bin_items ch (start + 1) k).length := by
        simp [bin_items]
      omega
  intro n
  induction n with
  | zero => rfl
  | succ n ih =>
    rw [hgen n 0, ← ih, Nat.zero_add]
    rfl

theorem bin_frees_nil (t : picohash_table) (items : Addr → picohash_item) (flag : Bool)
    (ch : Nat → List Addr) :
    ∀ (len start : Nat), bin_items ch start len = [] → bin_frees t items flag ch start len = []
  | 0, _, _ => rfl
  | len + 1, start, h => by
    simp only [bin_items, List.append_eq_nil] at h
    simp only [bin_frees, h.1, chain_frees, List.nil_append]
    exact bin_frees_nil t items flag ch len (start + 1) h.2

theorem released_keys_append (l1 l2 : List Freed) :
    released_keys (l1 ++ l2) = released_keys l1 ++ released_keys l2 := by
  induction l1 with
  | nil => rfl
  | cons x l ih => cases x <;> simp [released_keys, ih]

theorem released_keys_chain (t : picohash_table) (items : Addr → picohash_item) (flag : Bool) :
    ∀ l : List Addr, released_keys (chain_frees t items flag l) =
      if flag then l.map (fun a => (items a).key) else []
  | [] => by simp [chain_frees, released_keys]
  | a :: l => by
    simp only [chain_frees, released_keys_append, released_keys_chain t items flag l, item_frees]
    cases t.picohash_key_to_item <;> cases flag <;> simp [released_keys]

theorem released_keys_bins (t : picohash_table) (items : Addr → picohash_item) (flag : Bool)
    (ch : Nat → List Addr) :
    ∀ (len start : Nat), released_keys (bin_frees t items flag ch start len) =
      if flag then (bin_items ch start len).map (fun a => (items a).key) else []
  | 0, _ => by simp [bin_frees, bin_items, released_keys]
  | len + 1, start => by
    simp only [bin_frees, bin_items, released_keys_append, released_keys_chain,
      released_keys_bins t items flag ch len (start + 1)]
    cases flag <;> simp

/-- In a table with fewer than `2^32` buckets that satisfies the invariant,
`picohash_delete` returns, with fuel above the bucket count and the chain lengths; the keys
it releases are the keys of the items of all chains, one release for each item, when
`delete_key_too` is set, and none otherwise; the last two `free` calls are those of the
bucket array and of the table. -/
theorem delete_narrow {m : Mem} {ch : Nat → List Addr} (h : WF m ch) (flag : Bool)
    {fuel : Nat} (hnarrow : m.table.nb_bin < UINT32_MOD) (hfuel : m.table.nb_bin < fuel)
    (hinner : ∀ i, i < m.table.nb_bin → (ch i).length < fuel) :
    ∃ frees, picohash_delete fuel m flag =
        .ok (m.freed ++ frees ++ [Freed.hash_bin, Freed.table]) ∧
      released_keys frees =
        (if flag then (bin_items ch 0 m.table.nb_bin).map (fun a => (m.items a).key) else []) ∧
      (bin_items ch 0 m.table.nb_bin).Nodup := by
  have hnd : (bin_items ch 0 m.table.nb_bin).Nodup := by
    have hperm : ∀ n, bin_items ch 0 n = all_items ch n := by
      have hgen : ∀ len start, bin_items ch start (len + 1) =
          bin_items ch start len ++ ch (start + len) := by
        intro len
        induction len with
        | zero => intro start; simp [bin_items]
        | succ k ih =>
          intro start
          have h1 := ih (start + 1)
          have hidx : start + 1 + k = start + (k + 1) := by omega
          rw [hidx] at h1
          show ch start ++ bin_items ch (start + 1) (k + 1) = _
          rw [h1]
          simp [bin_items]
      intro n
      induction n with
      | zero => rfl
      | succ n ih => rw [hgen n 0, ih, Nat.zero_add]; rfl
    rw [hperm]
    exact wf_all_nodup h
  refine ⟨bin_frees m.table m.items flag ch 0 m.table.nb_bin, ?_,
    released_keys_bins _ _ _ _ _ _, hnd⟩
  by_cases hc : m.table.count > 0
  · simp only [picohash_delete, hc, if_true,
      delete_bins_spec flag h.chain hinner hnarrow m.table.nb_bin 0 fuel m.freed
        (by omega) hfuel]
  · have h0 : (bin_items ch 0 m.table.nb_bin).length = 0 := by
      rw [← chain_total_eq_bin_items, ← h.count]; omega
    have hnil : bin_items ch 0 m.table.nb_bin = [] := List.length_eq_zero.1 h0
    simp only [picohash_delete, hc, if_false,
      bin_frees_nil m.table m.items flag ch _ _ hnil, List.append_nil]

/-! ## The mixing hash -/

theorem seed_byte_lt (s : List Nat) (j : Nat) : seed_byte s j < 256 :=
  Nat.mod_lt _ (by decide)

theorem le64_eq (b0 b1 b2 b3 b4 b5 b6 b7 : Nat) (h0 : b0 < 256) (h1 : b1 < 256)
    (h2 : b2 < 256) (h3 : b3 < 256) (h4 : b4 < 256) (h5 : b5 < 256) (h6 : b6 < 256)
    (h7 : b7 < 256) :
    (b0 + (b1 <<< 8) + (b2 <<< 16) + (b3 <<< 24) + (b4 <<< 32) + (b5 <<< 40) + (b6 <<< 48) +
      (b7 <<< 56)) % UINT64_MOD =
    b0 + b1 * 2 ^ 8 + b2 * 2 ^ 16 + b3 * 2 ^ 24 + b4 * 2 ^ 32 + b5 * 2 ^ 40 + b6 * 2 ^ 48 +
      b7 * 2 ^ 56 := by
  simp only [Nat.shiftLeft_eq]
  apply Nat.mod_eq_of_lt
  unfold UINT64_MOD
  norm_num
  omega

theorem seed_word_eq (s : List Nat) : seed_word s = seed_le64 s :=
  le64_eq _ _ _ _ _ _ _ _ (seed_byte_lt s 8) (seed_byte_lt s 9) (seed_byte_lt s 10)
    (seed_byte_lt s 11) (seed_byte_lt s 12) (seed_byte_lt s 13) (seed_byte_lt s 14)
    (seed_byte_lt s 15)

theorem and_15_eq_mod (i : Nat) : i &&& 15 = i % 16 :=
  Nat.and_pow_two_sub_one_eq_mod i 4

theorem bytes_step_rotate (st : bytes_state) (byte seed : Nat) :
    11 ≤ (bytes_step st byte seed).rotate ∧ (bytes_step st byte seed).rotate ≤ 42 := by
  simp only [bytes_step]
  have h : ((st.hash ^^^ byte ^^^ seed ^^^ (st.hash ^^^ byte ^^^ seed) <<< 8 % UINT64_MOD) +
      (st.hash ^^^ byte ^^^ seed ^^^ (st.hash ^^^ byte ^^^ seed) <<< 8 % UINT64_MOD) >>>
        st.rotate) % UINT64_MOD &&& 31 ≤ 31 := Nat.and_le_right
  omega

theorem bytes_step_pair (bytes : Nat → Nat) (hash_seed : List Nat) (st : bytes_state) (i : Nat) :
    ((bytes_step st (bytes i % 256) (seed_byte hash_seed (i &&& 15))).hash,
      (bytes_step st (bytes i % 256) (seed_byte hash_seed (i &&& 15))).rotate) =
    ref_step bytes hash_seed (st.hash, st.rotate) i := by
  simp only [bytes_step, ref_step, and_15_eq_mod]
  rfl

theorem bytes_loop_fold (bytes : Nat → Nat) (length : Nat) (hash_seed : List Nat)
    (hnarrow : length < UINT32_MOD) :
    ∀ (k i fuel : Nat) (st : bytes_state), i + k = length → k < fuel →
      ∃ st1, bytes_loop bytes length hash_seed fuel i st = .ok st1 ∧
        (st1.hash, st1.rotate) =
          (List.range' i k).foldl (ref_step bytes hash_seed) (st.hash, st.rotate) ∧
        st1.shifts.length = st.shifts.length + k
  | _, _, 0, _, _, hf => by omega
  | 0, i, fuel + 1, st, hi, _ => by
    have : ¬ i < length := by omega
    exact ⟨st, by simp only [bytes_loop, this, if_false], rfl, rfl⟩
  | k + 1, i, fuel + 1, st, hi, hf => by
    have hlt : i < length := by omega
    have hwrap : (i + 1) % UINT32_MOD = i + 1 := Nat.mod_eq_of_lt (by omega)
    obtain ⟨st1, hrun, hpair, hlen⟩ :=
      bytes_loop_fold bytes length hash_seed hnarrow k (i + 1) fuel
        (bytes_step st (bytes i % 256) (seed_byte hash_seed (i &&& 15))) (by omega) (by omega)
    refine ⟨st1, ?_, ?_, ?_⟩
    · simp only [bytes_loop, hlt, if_true, hwrap]
      exact hrun
    · rw [hpair, bytes_step_pair, List.range'_succ, List.foldl_cons]
    · rw [hlen]
      simp only [bytes_step, List.length_append, List.length_singleton]
      omega

theorem bytes_loop_wide (bytes : Nat → Nat) {length : Nat} (hash_seed : List Nat)
    (hwide : UINT32_MOD ≤ length) :
    ∀ (fuel i : Nat) (st : bytes_state), i < UINT32_MOD →
      bytes_loop bytes length hash_seed fuel i st = .error Fault.out_of_fuel
  | 0, _, _, _ => rfl
  | fuel + 1, i, st, hi => by
    have hlt : i < length := lt_of_lt_of_le hi hwide
    simp only [bytes_loop, hlt, if_true]
    exact bytes_loop_wide bytes hash_seed hwide fuel _ _
      (Nat.mod_lt _ (by unfold UINT32_MOD; positivity))

theorem bytes_loop_shifts (bytes : Nat → Nat) (length : Nat) (hash_seed : List Nat) :
    ∀ (fuel i : Nat) (st st1 : bytes_state),
      (∀ r ∈ st.shifts, 11 ≤ r ∧ r ≤ 42) → 11 ≤ st.rotate ∧ st.rotate ≤ 42 →
      bytes_loop bytes length hash_seed fuel i st = .ok st1 →
      (∀ r ∈ st1.shifts, 11 ≤ r ∧ r ≤ 42) ∧ 11 ≤ st1.rotate ∧ st1.rotate ≤ 42
  | 0, _, _, _, _, _, h => by simp [bytes_loop] at h
  | fuel + 1, i, st, st1, hs, hr, h => by
    simp only [bytes_loop] at h
    by_cases hlt : i < length
    · rw [if_pos hlt] at h
      refine bytes_loop_shifts bytes length hash_seed fuel _ _ st1 ?_
        (bytes_step_rotate st _ _) h
      intro r hr1
      simp only [bytes_step, List.mem_append, List.mem_singleton] at hr1
      rcases hr1 with h1 | h1
      · exact hs r h1
      · rw [h1]; exact hr
    · rw [if_neg hlt] at h
      simp only [Except.ok.injEq] at h
      subst h
      exact ⟨hs, hr⟩

theorem bytes_loop_seed (bytes : Nat → Nat) (length : Nat) (s1 s2 : List Nat)
    (hagree : ∀ j, j < length → seed_byte s1 (j &&& 15) = seed_byte s2 (j &&& 15)) :
    ∀ (fuel i : Nat) (st : bytes_state),
      bytes_loop bytes length s1 fuel i st = bytes_loop bytes length s2 fuel i st
  | 0, _, _ => rfl
  | fuel + 1, i, st => by
    simp only [bytes_loop]
    by_cases hlt : i < length
    · rw [if_pos hlt, if_pos hlt, hagree i hlt]
      exact bytes_loop_seed bytes length s1 s2 hagree fuel _ _
    · rw [if_neg hlt, if_neg hlt]

/-- For an input of fewer than `2^32` bytes `picohash_bytes` returns, with fuel above the
length, the value of the reference fold. -/
theorem picohash_bytes_refines (bytes : Nat → Nat) (length : Nat) (hash_seed : List Nat)
    (fuel : Nat) (hnarrow : length < UINT32_MOD) (hfuel : length < fuel) :
    picohash_bytes fuel bytes length hash_seed =
      .ok (picohash_bytes_ref bytes length hash_seed) := by
  obtain ⟨st1, hrun, hpair, _⟩ :=
    bytes_loop_fold bytes length hash_seed hnarrow length 0 fuel
      { hash := seed_word hash_seed, rotate := 11, shifts := [] } (by omega) hfuel
  simp only [picohash_bytes, picohash_bytes_run, hrun, picohash_bytes_ref,
    List.range_eq_range', ← seed_word_eq]
  simp only [] at hpair
  rw [← hpair]

/-! ## Two insertions into the same bucket -/

theorem insert_two_spec {m : Mem} {ch : Nat → List Addr} (hwf : WF m ch)
    (hnb : 0 < m.table.nb_bin) {k1 k2 : Key} {a1 a2 : Addr}
    (howned : m.table.picohash_key_to_item = none)
    (hhash : key_hash m.table k1 = key_hash m.table k2)
    (hv1 : valid_ptr a1) (hv2 : valid_ptr a2)
    (hf1 : ∀ i, i < m.table.nb_bin → a1 ∉ ch i) (hf2 : ∀ i, i < m.table.nb_bin → a2 ∉ ch i)
    (hne : a2 ≠ a1) :
    ∃ m1 m2, picohash_insert (some a1) m k1 = .ok (0, m1) ∧
      picohash_insert (some a2) m1 k2 = .ok (0, m2) ∧
      WF m2 (Function.update ch (bin_of m.table.nb_bin (key_hash m.table k1))
        (a2 :: a1 :: ch (bin_of m.table.nb_bin (key_hash m.table k1)))) ∧
      SameConfig m.table m2.table ∧ m2.table.count = m.table.count + 2 ∧
      (m2.items a2).key = k2 ∧ (m2.items a1).key = k1 ∧
      (m2.items a2).hash = key_hash m.table k1 ∧ (m2.items a1).hash = key_hash m.table k1 := by
  have ho1 : obtain_item m.table (some a1) k1 = some a1 := by simp only [obtain_item, howned]
  obtain ⟨m1, hrun1, hwf1, hcfg1, hcount1, _, hit1, _, _⟩ := insert_spec hwf hnb ho1 hv1 hf1
  have hnb1 : m1.table.nb_bin = m.table.nb_bin := hcfg1.1
  have hnbp1 : 0 < m1.table.nb_bin := by rw [hnb1]; exact hnb
  have hk2 : key_hash m1.table k2 = key_hash m.table k1 := by
    rw [key_hash_config hcfg1, hhash]
  generalize hb : bin_of m.table.nb_bin (key_hash m.table k1) = b at hwf1 hit1 ⊢
  have ho2 : obtain_item m1.table (some a2) k2 = some a2 := by
    simp only [obtain_item, hcfg1.2.2.2.1, howned]
  have hfresh2 : ∀ i, i < m1.table.nb_bin → a2 ∉ Function.update ch b (a1 :: ch b) i := by
    intro i hi
    rw [hnb1] at hi
    by_cases hib : i = b
    · rw [hib, Function.update_same]
      intro hx
      rcases List.mem_cons.1 hx with h1 | h1
      · exact hne h1
      · exact hf2 b (hib ▸ hi) h1
    · rw [Function.update_noteq hib]
      exact hf2 i hi
  obtain ⟨m2, hrun2, hwf2, hcfg2, hcount2, _, hit2, hothers2, _⟩ :=
    insert_spec hwf1 hnbp1 ho2 hv2 hfresh2
  have hbin2 : bin_of m1.table.nb_bin (key_hash m1.table k2) = b := by rw [hk2, hnb1, hb]
  rw [hbin2, Function.update_same, Function.update_idem] at hwf2
  refine ⟨m1, m2, hrun1, hrun2, hwf2, ?_, by rw [hcount2, hcount1], ?_, ?_, ?_, ?_⟩
  · obtain ⟨c1, c2, c3, c4, c5⟩ := hcfg1
    obtain ⟨d1, d2, d3, d4, d5⟩ := hcfg2
    exact ⟨d1.trans c1, d2.trans c2, d3.trans c3, d4.trans c4, d5.trans c5⟩
  · rw [hit2]
  · rw [hothers2 a1 (fun e => hne e.symm), hit1]
  · rw [hit2, hk2]
  · rw [hothers2 a1 (fun e => hne e.symm), hit1]

theorem retrieve_head {m : Mem} {ch : Nat → List Addr} (h : WF m ch)
    (hnb : 0 < m.table.nb_bin) (key : Key) {a : Addr} {l : List Addr} {fuel b : Nat}
    (hb : bin_of m.table.nb_bin (key_hash m.table key) = b) (hl : ch b = a :: l)
    (hmatch : m.table.picohash_compare key (m.items a).key = 0)
    (hf : l.length + 1 < fuel) : picohash_retrieve fuel m key = .ok (some a) := by
  subst hb
  rw [retrieve_spec h hnb key (by rw [hl]; simpa using hf), hl, List.find?_cons]
  simp [hmatch]

/-! ## The claims -/

/-- C1: on a table freshly created by `picohash_create_ex` (of which `picohash_create` is
the case without extractor and seed) with a positive bucket count, with a comparator that
reports each key equal to itself, a `picohash_insert` of `k` that returns 0 is followed by
a `picohash_retrieve` of `k` that returns an item, not `NULL`, whose key is `k` and
compares equal to `k`. One unit of fuel is enough for the lookup. -/
theorem picohash_retrieve_after_first_insert (mt : Bool) (mb : Nat → Bool) (nb_bin : Nat)
    (hash : Key → List Nat → Nat) (compare : Key → Key → Int)
    (k2i : Option (Key → Option Addr)) (seed : Option (List Nat)) (t : picohash_table)
    (items : Addr → picohash_item) (freed : List Freed) (malloc : Option Addr) (k : Key)
    (m1 : Mem) (fuel : Nat)
    (hcreate : picohash_create_ex mt mb nb_bin hash compare k2i seed = .ok (some t))
    (hnb : 0 < nb_bin) (hrefl : ∀ x, compare x x = 0)
    (hins : picohash_insert malloc ⟨t, items, freed⟩ k = .ok (0, m1)) (hfuel : 0 < fuel) :
    ∃ a, picohash_retrieve fuel m1 k = .ok (some a) ∧ (m1.items a).key = k ∧
      compare k (m1.items a).key = 0 := by
  have ht := create_ex_some hcreate
  subst ht
  have hnb1 : 0 < (created_table nb_bin hash compare k2i seed).nb_bin := hnb
  simp only [picohash_insert, bin_index_pos _ hnb1] at hins
  cases ho : obtain_item (created_table nb_bin hash compare k2i seed) malloc k with
  | none =>
    rw [ho] at hins
    simp only [Except.ok.injEq, Prod.mk.injEq] at hins
    exact absurd hins.1 (by decide)
  | some a =>
    rw [ho] at hins
    simp only [Except.ok.injEq, Prod.mk.injEq, true_and] at hins
    subst hins
    refine ⟨a, ?_, ?_, ?_⟩
    · obtain ⟨f, rfl⟩ : ∃ f, fuel = f + 1 := ⟨fuel - 1, by omega⟩
      have hk : key_hash
          { created_table nb_bin hash compare k2i seed with
            hash_bin := Function.update (created_table nb_bin hash compare k2i seed).hash_bin
              (bin_of (created_table nb_bin hash compare k2i seed).nb_bin
                (key_hash (created_table nb_bin hash compare k2i seed) k)) (some a)
            count := ((created_table nb_bin hash compare k2i seed).count + 1) % UINT64_MOD } k
          = key_hash (created_table nb_bin hash compare k2i seed) k := rfl
      simp only [picohash_retrieve, bin_index_pos _ hnb1, hk, Function.update_same,
        retrieve_loop]
      exact if_pos (hrefl k)
    · simp only [Function.update_same]
    · simp only [Function.update_same]
      exact hrefl k

/-- Instance of C1: key 5 inserted with the item at address 16 into the empty table of 4
buckets is retrieved. -/
theorem picohash_retrieve_after_first_insert_witness :
    ∃ a, picohash_retrieve 1 ex_mem1 5 = .ok (some a) ∧ (ex_mem1.items a).key = 5 ∧
      ex_compare 5 (ex_mem1.items a).key = 0 :=
  picohash_retrieve_after_first_insert true ex_malloc_bins 4 ex_hash ex_compare none none
    ex_table4 ex_items [] (some 16) 5 ex_mem1 1 rfl (by decide)
    (fun x => by simp [ex_compare]) rfl (by decide)

/-- C4: on a table with a positive bucket count, `picohash_insert` returns -1 and leaves
the memory, hence `count` and every bucket chain, exactly as before when it obtains no
item (the allocation fails in owned mode, the extractor returns `NULL` in intrusive mode);
in every other case it returns 0. -/
theorem picohash_insert_status (malloc : Option Addr) (m : Mem) (key : Key)
    (hnb : 0 < m.table.nb_bin) :
    (m.table.picohash_key_to_item = none → malloc = none →
      picohash_insert malloc m key = .ok (-1, m)) ∧
    (∀ f, m.table.picohash_key_to_item = some f → f key = none →
      picohash_insert malloc m key = .ok (-1, m)) ∧
    (m.table.picohash_key_to_item = none → malloc ≠ none →
      ∃ m1, picohash_insert malloc m key = .ok (0, m1)) ∧
    (∀ f, m.table.picohash_key_to_item = some f → f key ≠ none →
      ∃ m1, picohash_insert malloc m key = .ok (0, m1)) := by
  refine ⟨?_, ?_, ?_, ?_⟩
  · intro hk hm
    exact insert_fail hnb (by simp only [obtain_item, hk, hm])
  · intro f hk hf
    exact insert_fail hnb (by simp only [obtain_item, hk, hf])
  · intro hk hm
    obtain ⟨a, ha⟩ := Option.ne_none_iff_exists'.1 hm
    have ho : obtain_item m.table malloc key = some a := by simp only [obtain_item, hk, ha]
    simp only [picohash_insert, bin_index_pos _ hnb, ho]
    exact ⟨_, rfl⟩
  · intro f hk hf
    obtain ⟨a, ha⟩ := Option.ne_none_iff_exists'.1 hf
    have ho : obtain_item m.table malloc key = some a := by simp only [obtain_item, hk, ha]
    simp only [picohash_insert, bin_index_pos _ hnb, ho]
    exact ⟨_, rfl⟩

/-- Instance of C4: a failed allocation on the table that holds key 5. -/
theorem picohash_insert_status_witness :
    (ex_mem1.table.picohash_key_to_item = none → (none : Option Addr) = none →
      picohash_insert none ex_mem1 9 = .ok (-1, ex_mem1)) ∧
    (∀ f, ex_mem1.table.picohash_key_to_item = some f → f 9 = none →
      picohash_insert none ex_mem1 9 = .ok (-1, ex_mem1)) ∧
    (ex_mem1.table.picohash_key_to_item = none → (none : Option Addr) ≠ none →
      ∃ m1, picohash_insert none ex_mem1 9 = .ok (0, m1)) ∧
    (∀ f, ex_mem1.table.picohash_key_to_item = some f → f 9 ≠ none →
      ∃ m1, picohash_insert none ex_mem1 9 = .ok (0, m1)) :=
  picohash_insert_status none ex_mem1 9 (by decide)

/-- C7: when `picohash_retrieve` of `k` returns `NULL`, `picohash_delete_key` with
`delete_key_too` set adds exactly one `free` of `k` to the trace and leaves the table and
the item memory as they were; with `delete_key_too` clear it leaves the whole memory,
trace included, as it was. -/
theorem picohash_delete_key_not_found (fuel : Nat) (m : Mem) (k : Key)
    (h : picohash_retrieve fuel m k = .ok none) :
    picohash_delete_key fuel m k true =
      .ok { table := m.table, items := m.items, freed := m.freed ++ [Freed.key k] } ∧
    picohash_delete_key fuel m k false = .ok m := by
  simp only [picohash_delete_key, h]
  exact ⟨rfl, rfl⟩

/-- Instance of C7: key 9 is not in the table that holds key 5. -/
theorem picohash_delete_key_not_found_witness :
    picohash_delete_key 2 ex_mem1 9 true =
      .ok { table := ex_mem1.table, items := ex_mem1.items,
            freed := ex_mem1.freed ++ [Freed.key 9] } ∧
    picohash_delete_key 2 ex_mem1 9 false = .ok ex_mem1 :=
  picohash_delete_key_not_found 2 ex_mem1 9 rfl

/-- C10, amended: when the size of the bucket array, `nb_bin` times the pointer size, fits
in a `size_t` and both allocations succeed, `picohash_create_ex` returns a table with
`nb_bin` buckets that are all empty, `count = 0`, the given hash, compare and extractor
functions, and the given seed, or 16 zero bytes when the seed argument is `NULL`;
`picohash_create` is `picohash_create_ex` without extractor and without seed. -/
theorem picohash_create_ex_result (mb : Nat → Bool) (nb_bin : Nat)
    (hash : Key → List Nat → Nat) (compare : Key → Key → Int)
    (k2i : Option (Key → Option Addr)) (seed : Option (List Nat))
    (hfit : SIZEOF_ITEM_PTR * nb_bin < UINT64_MOD)
    (hmb : mb (SIZEOF_ITEM_PTR * nb_bin) = true) :
    (∃ t, picohash_create_ex true mb nb_bin hash compare k2i seed = .ok (some t) ∧
      t.nb_bin = nb_bin ∧ (∀ i, t.hash_bin i = none) ∧ t.count = 0 ∧
      t.picohash_hash = hash ∧ t.picohash_compare = compare ∧
      t.picohash_key_to_item = k2i ∧
      t.hash_seed = (match seed with
        | none => [0, 0, 0, 0, 0, 0, 0, 0, 0, 0, 0, 0, 0, 0, 0, 0]
        | some s => s)) ∧
    (∀ mt, picohash_create mt mb nb_bin hash compare =
      picohash_create_ex mt mb nb_bin hash compare none none) := by
  refine ⟨⟨_, create_ex_eq hash compare k2i seed hfit hmb, rfl, fun _ => rfl, rfl, rfl, rfl,
    rfl, ?_⟩, fun _ => rfl⟩
  cases seed <;> rfl

/-- Instance of C10, amended: creation of a table of 4 buckets. -/
theorem picohash_create_ex_result_witness :
    (∃ t, picohash_create_ex true ex_malloc_bins 4 ex_hash ex_compare none none =
        .ok (some t) ∧
      t.nb_bin = 4 ∧ (∀ i, t.hash_bin i = none) ∧ t.count = 0 ∧
      t.picohash_hash = ex_hash ∧ t.picohash_compare = ex_compare ∧
      t.picohash_key_to_item = none ∧
      t.hash_seed = (match (none : Option (List Nat)) with
        | none => [0, 0, 0, 0, 0, 0, 0, 0, 0, 0, 0, 0, 0, 0, 0, 0]
        | some s => s)) ∧
    (∀ mt, picohash_create mt ex_malloc_bins 4 ex_hash ex_compare =
      picohash_create_ex mt ex_malloc_bins 4 ex_hash ex_compare none none) :=
  picohash_create_ex_result ex_malloc_bins 4 ex_hash ex_compare none none (by decide) rfl

/-- C10 as stated fails: with `nb_bin = 2^61` the byte size of the bucket array wraps to
0, the guard on the size rejects the request, and `picohash_create_ex` returns `NULL`
although the table allocation succeeded and the allocator would grant any request. -/
theorem picohash_create_ex_overflow_counterexample :
    (∀ n, ex_malloc_bins n = true) ∧
    picohash_create_ex true ex_malloc_bins (2 ^ 61) ex_hash ex_compare none none = .ok none :=
  ⟨fun _ => rfl, by
    have h : ¬ (SIZEOF_ITEM_PTR * 2 ^ 61 % UINT64_MOD / SIZEOF_ITEM_PTR = 2 ^ 61) := by decide
    simp only [picohash_create_ex, if_neg h]
    rfl⟩

/-- The scenario with 4 buckets satisfies the invariant after the three insertions. -/
theorem ex_abc3_wf : WF ex_abc3 ex_abc_chains :=
  ⟨by decide, by decide, by decide, by decide⟩

/-- C6: for a table that satisfies the representation invariant with chains `ch`, and an
item of the chain of bucket `i`, `picohash_delete_item` returns (with fuel above the chain
length) and removes exactly that item from the chain of bucket `i`: the chain afterwards is
the old chain without that item, the others in the same order; every other bucket keeps
its head and its chain; `count` decreases by exactly 1. -/
theorem picohash_delete_item_removes (m : Mem) (ch : Nat → List Addr) (item : Addr) (i : Nat)
    (fuel : Nat) (flag : Bool) (hwf : WF m ch) (hi : i < m.table.nb_bin)
    (hmem : item ∈ ch i) (hfuel : (ch i).length < fuel) :
    ∃ m1, picohash_delete_item fuel m item flag = .ok m1 ∧
      IsChain m1.items (m1.table.hash_bin i) ((ch i).erase item) ∧
      (ch i).erase item = (ch i).filter (fun a => a != item) ∧
      (∀ j, j < m.table.nb_bin → j ≠ i →
        m1.table.hash_bin j = m.table.hash_bin j ∧
        IsChain m1.items (m1.table.hash_bin j) (ch j)) ∧
      m1.table.count + 1 = m.table.count ∧ m1.table.nb_bin = m.table.nb_bin := by
  have hnb : 0 < m.table.nb_bin := by omega
  have hhome := hwf.home i hi item hmem
  have hmem1 : item ∈ ch (bin_of m.table.nb_bin (m.items item).hash) := by rw [hhome]; exact hmem
  have hf1 : (ch (bin_of m.table.nb_bin (m.items item).hash)).length < fuel := by
    rw [hhome]; exact hfuel
  obtain ⟨m1, hrun, hwf1, hcfg, hcount, _, _, hbins, _⟩ :=
    delete_item_found hwf hnb flag hmem1 hf1
  rw [hhome] at hwf1 hbins
  have hnb1 : m1.table.nb_bin = m.table.nb_bin := hcfg.1
  refine ⟨m1, hrun, ?_, ?_, ?_, hcount, hnb1⟩
  · have := hwf1.chain i (by rw [hnb1]; exact hi)
    rwa [Function.update_same] at this
  · exact List.Nodup.erase_eq_filter (isChain_nodup (hwf.chain i hi)) item
  · intro j hj hji
    refine ⟨hbins j hji, ?_⟩
    have := hwf1.chain j (by rw [hnb1]; exact hj)
    rwa [Function.update_noteq hji] at this

/-- Instance of C6, the scenario with 4 buckets: keys 4 and 8 in bucket 0, key 1 in
bucket 1; bucket 0 is `[32, 16]`, the items of keys 8 and 4; the deletion of the item of
key 8 leaves `[16]`; `count` goes 0, 1, 2, 3, 2. -/
theorem picohash_delete_item_removes_witness :
    (ex_mem ex_table4).table.count = 0 ∧ ex_abc1.table.count = 1 ∧
    ex_abc2.table.count = 2 ∧ ex_abc3.table.count = 3 ∧
    IsChain ex_abc3.items (ex_abc3.table.hash_bin 0) [32, 16] ∧
    (ex_abc3.items 32).key = 8 ∧ (ex_abc3.items 16).key = 4 ∧
    ∃ m1, picohash_delete_item 3 ex_abc3 32 false = .ok m1 ∧
      IsChain m1.items (m1.table.hash_bin 0) [16] ∧
      (∀ j, j < 4 → j ≠ 0 →
        m1.table.hash_bin j = ex_abc3.table.hash_bin j ∧
        IsChain m1.items (m1.table.hash_bin j) (ex_abc_chains j)) ∧
      m1.table.count = 2 := by
  refine ⟨by decide, by decide, by decide, by decide, by decide, by decide, by decide, ?_⟩
  obtain ⟨m1, hrun, hch, _, hothers, hcount, _⟩ :=
    picohash_delete_item_removes ex_abc3 ex_abc_chains 32 0 3 false ex_abc3_wf
      (by decide) (by decide) (by decide)
  refine ⟨m1, hrun, hch, hothers, ?_⟩
  have h3 : ex_abc3.table.count = 3 := by decide
  omega

/-- C2: in an owned-mode table that satisfies the invariant, for two keys `k1`, `k2` that
the comparator reports equal (`k1` to `k2`, and `k2` to itself) and that have the same
hash, inserting `k1` and then `k2`
(the allocator returning the fresh items `a1`, `a2`) puts both items in the same bucket
chain, `a2` first, and `picohash_retrieve` of either key returns `a2`, the item holding
`k2`. In general, with fuel above the chain length, `picohash_retrieve` returns the first
item of the chain of the key's bucket whose key compares equal to the looked-up key, and
`NULL` exactly when the chain has no such item. -/
theorem picohash_retrieve_duplicate (m : Mem) (ch : Nat → List Addr) (k1 k2 : Key)
    (a1 a2 : Addr) (fuel : Nat) (hwf : WF m ch) (hnb : 0 < m.table.nb_bin)
    (howned : m.table.picohash_key_to_item = none)
    (heq : m.table.picohash_compare k1 k2 = 0) (hrefl : m.table.picohash_compare k2 k2 = 0)
    (hhash : key_hash m.table k1 = key_hash m.table k2)
    (hv1 : valid_ptr a1) (hv2 : valid_ptr a2)
    (hf1 : ∀ i, i < m.table.nb_bin → a1 ∉ ch i) (hf2 : ∀ i, i < m.table.nb_bin → a2 ∉ ch i)
    (hne : a2 ≠ a1)
    (hfuel : (ch (bin_of m.table.nb_bin (key_hash m.table k1))).length + 2 < fuel) :
    (∃ m1 m2, picohash_insert (some a1) m k1 = .ok (0, m1) ∧
      picohash_insert (some a2) m1 k2 = .ok (0, m2) ∧
      IsChain m2.items (m2.table.hash_bin (bin_of m.table.nb_bin (key_hash m.table k1)))
        (a2 :: a1 :: ch (bin_of m.table.nb_bin (key_hash m.table k1))) ∧
      (m2.items a2).key = k2 ∧ (m2.items a1).key = k1 ∧
      picohash_retrieve fuel m2 k1 = .ok (some a2) ∧
      picohash_retrieve fuel m2 k2 = .ok (some a2)) ∧
    (∀ key fuel1, (ch (bin_of m.table.nb_bin (key_hash m.table key))).length < fuel1 →
      picohash_retrieve fuel1 m key =
        .ok ((ch (bin_of m.table.nb_bin (key_hash m.table key))).find?
          (fun a => decide (m.table.picohash_compare key (m.items a).key = 0))) ∧
      (picohash_retrieve fuel1 m key = .ok none ↔
        ∀ a ∈ ch (bin_of m.table.nb_bin (key_hash m.table key)),
          m.table.picohash_compare key (m.items a).key ≠ 0)) := by
  constructor
  · have ho1 : obtain_item m.table (some a1) k1 = some a1 := by simp only [obtain_item, howned]
    obtain ⟨m1, hrun1, hwf1, hcfg1, _, _, hit1, _, _⟩ := insert_spec hwf hnb ho1 hv1 hf1
    have hnb1 : m1.table.nb_bin = m.table.nb_bin := hcfg1.1
    have hnbp1 : 0 < m1.table.nb_bin := by rw [hnb1]; exact hnb
    have hk2 : key_hash m1.table k2 = key_hash m.table k1 := by
      rw [key_hash_config hcfg1, hhash]
    generalize hb : bin_of m.table.nb_bin (key_hash m.table k1) = b at hwf1 hfuel hit1 ⊢
    have ho2 : obtain_item m1.table (some a2) k2 = some a2 := by
      simp only [obtain_item, hcfg1.2.2.2.1, howned]
    have hfresh2 : ∀ i, i < m1.table.nb_bin →
        a2 ∉ Function.update ch b (a1 :: ch b) i := by
      intro i hi
      rw [hnb1] at hi
      by_cases hib : i = b
      · rw [hib, Function.update_same]
        intro hx
        rcases List.mem_cons.1 hx with h1 | h1
        · exact hne h1
        · exact hf2 b (hib ▸ hi) h1
      · rw [Function.update_noteq hib]
        exact hf2 i hi
    obtain ⟨m2, hrun2, hwf2, hcfg2, _, _, hit2, hothers2, _⟩ :=
      insert_spec hwf1 hnbp1 ho2 hv2 hfresh2
    have hbin2 : bin_of m1.table.nb_bin (key_hash m1.table k2) = b := by
      rw [hk2, hnb1, hb]
    rw [hbin2, Function.update_same] at hwf2
    have hnb2 : m2.table.nb_bin = m.table.nb_bin := hcfg2.1.trans hnb1
    have hnbp2 : 0 < m2.table.nb_bin := by rw [hnb2]; exact hnb
    have hblt : b < m.table.nb_bin := by rw [← hb]; exact bin_of_lt _ hnb
    have hchain := hwf2.chain b (by rw [hnb2]; exact hblt)
    rw [Function.update_same] at hchain
    have hkey2 : (m2.items a2).key = k2 := by rw [hit2]
    have hkey1 : (m2.items a1).key = k1 := by rw [hothers2 a1 (fun e => hne e.symm), hit1]
    have hcmp : m2.table.picohash_compare = m.table.picohash_compare :=
      hcfg2.2.2.1.trans hcfg1.2.2.1
    have hh : ∀ k, key_hash m2.table k = key_hash m.table k := fun k => by
      rw [key_hash_config hcfg2, key_hash_config hcfg1]
    have hlen : ∀ k, key_hash m.table k = key_hash m.table k1 →
        (Function.update (Function.update ch b (a1 :: ch b)) b (a2 :: a1 :: ch b)
          (bin_of m2.table.nb_bin (key_hash m2.table k))).length < fuel := by
      intro k hk
      rw [hh, hk, hnb2, hb, Function.update_same]
      simp only [List.length_cons]
      omega
    refine ⟨m1, m2, hrun1, hrun2, hchain, hkey2, hkey1, ?_, ?_⟩
    · rw [retrieve_spec hwf2 hnbp2 k1 (hlen k1 rfl), hh, hnb2, hb, Function.update_same,
        List.find?_cons, hkey2, hcmp, heq]
      rfl
    · rw [retrieve_spec hwf2 hnbp2 k2 (hlen k2 hhash.symm), hh, ← hhash, hnb2, hb,
        Function.update_same, List.find?_cons, hkey2, hcmp, hrefl]
      rfl
  · intro key fuel1 hf
    have hr := retrieve_spec hwf hnb key hf
    refine ⟨hr, ?_⟩
    rw [hr]
    simp only [Except.ok.injEq, List.find?_eq_none, decide_eq_true_eq]

/-- Instance of C2: keys 5 and 21 are equal under the comparator of the low 4 bits; after
both insertions the lookup of either returns the item of key 21. -/
theorem picohash_retrieve_duplicate_witness :
    ∃ m1 m2, picohash_insert (some 64) (ex_mem ex_table16) 5 = .ok (0, m1) ∧
      picohash_insert (some 80) m1 21 = .ok (0, m2) ∧
      IsChain m2.items (m2.table.hash_bin 1) [80, 64] ∧
      (m2.items 80).key = 21 ∧ (m2.items 64).key = 5 ∧
      picohash_retrieve 3 m2 5 = .ok (some 80) ∧
      picohash_retrieve 3 m2 21 = .ok (some 80) :=
  (picohash_retrieve_duplicate (ex_mem ex_table16) (fun _ => []) 5 21 64 80 3
    (wf_created 4 ex_hash16 ex_compare16 none none ex_items []) (by decide) rfl
    (by decide) (by decide) (by decide) (by decide) (by decide)
    (fun _ _ => by simp) (fun _ _ => by simp) (by decide) (by decide)).1

/-- C5, the code at a failing input: in a table of `2^32 + 1` buckets the key with hash
`2^32` belongs to bucket `2^32 = hash mod nb_bin`, but `picohash_insert` links its item
at the head of bucket 0, the value of the index after the cast to `uint32_t`, and leaves
bucket `2^32` empty. -/
theorem picohash_insert_bucket_truncated :
    picohash_create true ex_malloc_bins (2 ^ 32 + 1) ex_hash ex_compare =
      .ok (some ex_table_wide) ∧
    key_hash ex_table_wide (2 ^ 32) % ex_table_wide.nb_bin = 2 ^ 32 ∧
    ∃ m1, picohash_insert (some 16) (ex_mem ex_table_wide) (2 ^ 32) = .ok (0, m1) ∧
      m1.table.hash_bin (2 ^ 32) = none ∧ m1.table.hash_bin 0 = some 16 := by
  refine ⟨?_, by decide, ?_⟩
  · exact create_ex_eq ex_hash ex_compare none none (by decide) rfl
  · refine ⟨_, rfl, by decide, by decide⟩

/-- C8, the code at a failing input: a table of `2^32` buckets that holds one item.
The loop counter of `picohash_delete` is a `uint32_t`, so it never reaches `nb_bin`:
whatever the fuel, the call does not return. -/
theorem picohash_delete_wide_never_returns :
    picohash_create true ex_malloc_bins (2 ^ 32) ex_hash ex_compare =
      .ok (some ex_table_2p32) ∧
    picohash_insert (some 16) (ex_mem ex_table_2p32) 7 = .ok (0, ex_wide1) ∧
    ex_wide1.table.count = 1 ∧
    ∀ fuel flag, picohash_delete fuel ex_wide1 flag = .error Fault.out_of_fuel := by
  refine ⟨?_, rfl, by decide, ?_⟩
  · exact create_ex_eq ex_hash ex_compare none none (by decide) rfl
  · intro fuel flag
    have hc : ex_wide1.table.count > 0 := by decide
    have hw : UINT32_MOD ≤ ex_wide1.table.nb_bin := by decide
    simp only [picohash_delete, hc, if_true,
      delete_bins_wide flag fuel hw fuel 0 ex_wide1.freed (by decide)]

/-- C9, amended: in every memory reachable from a created table by calls of
`picohash_insert` that obtain an item which is in no chain of the table (always so in owned
mode, where the item comes from `malloc`), of `picohash_delete_item` and of
`picohash_delete_key`, every bucket has a finite chain and `count` is the sum of the chain
lengths. From such a memory a call of `picohash_insert` that returns 0 adds 1 to `count`
and one that returns -1 leaves it; a call of `picohash_delete_item` takes 1 from `count`
when the item is in the chain of its bucket and leaves it otherwise; a call of
`picohash_delete_key` takes 1 from `count` when the lookup finds an item and leaves it
otherwise. -/
theorem picohash_count_invariant (m : Mem) (hreach : Reachable fresh_contract m) :
    ∃ ch : Nat → List Addr,
      (∀ i, i < m.table.nb_bin → IsChain m.items (m.table.hash_bin i) (ch i)) ∧
      m.table.count = chain_total ch m.table.nb_bin ∧
      (∀ malloc key r m1, fresh_contract m malloc key →
        picohash_insert malloc m key = .ok (r, m1) →
        (r = 0 ∧ m1.table.count = m.table.count + 1) ∨
        (r = -1 ∧ m1.table.count = m.table.count)) ∧
      (∀ fuel item flag m1, picohash_delete_item fuel m item flag = .ok m1 →
        (item ∈ ch (bin_of m.table.nb_bin (m.items item).hash) ∧
          m1.table.count + 1 = m.table.count) ∨
        (item ∉ ch (bin_of m.table.nb_bin (m.items item).hash) ∧
          m1.table.count = m.table.count)) ∧
      (∀ fuel key flag m1, picohash_delete_key fuel m key flag = .ok m1 →
        (∃ a, picohash_retrieve fuel m key = .ok (some a) ∧
          m1.table.count + 1 = m.table.count) ∨
        (picohash_retrieve fuel m key = .ok none ∧ m1.table.count = m.table.count)) := by
  obtain ⟨ch, hwf⟩ := reachable_wf hreach
  exact ⟨ch, hwf.chain, hwf.count,
    fun _ _ _ _ hadm hrun => (wf_step_insert hwf hadm hrun).2,
    fun _ _ _ _ hrun => (wf_step_delete_item hwf hrun).2,
    fun _ _ _ _ hrun => (wf_step_delete_key hwf hrun).2⟩

/-- The scenario with 4 buckets is reachable after its first insertion. -/
theorem ex_abc1_reachable : Reachable fresh_contract ex_abc1 := by
  refine Reachable.insert (ex_mem ex_table4) (some 16) 4 0 ex_abc1
    (Reachable.create true ex_malloc_bins 4 ex_hash ex_compare none none ex_table4 ex_items []
      rfl) ?_ rfl
  intro a ha
  have h16 : a = 16 := by
    have : some 16 = some a := ha
    simpa using this.symm
  subst h16
  exact ⟨by decide,
    fresh_item_of_wf (wf_created 4 ex_hash ex_compare none none ex_items [])
      (fun _ _ => by simp)⟩

/-- Instance of C9, amended: the table after one insertion. -/
theorem picohash_count_invariant_witness :
    ex_abc1.table.count = 1 ∧
    ∃ ch : Nat → List Addr,
      (∀ i, i < ex_abc1.table.nb_bin →
        IsChain ex_abc1.items (ex_abc1.table.hash_bin i) (ch i)) ∧
      ex_abc1.table.count = chain_total ch ex_abc1.table.nb_bin := by
  obtain ⟨ch, h1, h2, _⟩ := picohash_count_invariant ex_abc1 ex_abc1_reachable
  exact ⟨by decide, ch, h1, h2⟩

/-- C9 as stated fails: in intrusive mode the extractor returns, for a key that is already
in the table, the item that is already linked. After two calls `picohash_insert(table, 8)`
the item at address 16 is its own successor and `count` is 2: no bucket assignment of
finite chains exists, so `count` is not the sum of the chain lengths. -/
theorem picohash_count_reinsert_counterexample :
    Reachable alloc_contract ex_twice2 ∧ ex_twice2.table.count = 2 ∧
    ex_twice2.table.hash_bin 0 = some 16 ∧ (ex_twice2.items 16).next_in_bin = some 16 ∧
    ¬ ∃ ch : Nat → List Addr,
      (∀ i, i < ex_twice2.table.nb_bin →
        IsChain ex_twice2.items (ex_twice2.table.hash_bin i) (ch i)) ∧
      ex_twice2.table.count = chain_total ch ex_twice2.table.nb_bin := by
  have hadm : ∀ m : Mem, m.table.picohash_key_to_item = some ex_key_to_item →
      alloc_contract m none 8 := by
    intro m hm a ha
    simp only [obtain_item, hm, ex_key_to_item, Option.some.injEq] at ha
    subst ha
    exact ⟨by decide, fun h => by rw [hm] at h; cases h⟩
  refine ⟨?_, by decide, by decide, by decide, ?_⟩
  · exact Reachable.insert ex_twice1 none 8 0 ex_twice2
      (Reachable.insert (ex_mem ex_table_intrusive) none 8 0 ex_twice1
        (Reachable.create true ex_malloc_bins 4 ex_hash ex_compare (some ex_key_to_item) none
          ex_table_intrusive ex_items [] rfl) (hadm _ rfl) rfl) (hadm _ rfl) rfl
  · rintro ⟨ch, hch, _⟩
    have h0 := hch 0 (by decide)
    have hhead : ex_twice2.table.hash_bin 0 = some 16 := by decide
    rw [hhead] at h0
    exact isChain_self_loop (by decide) _ h0

/-- C3: let an empty table (all chains empty, `count = 0`, positive bucket count) receive
`N` insertions of keys that are pairwise not equal under the comparator, each equal to
itself, and let each insertion obtain an item, the items being distinct machine pointers
(as `malloc` grants; in intrusive mode each item is embedded in its own key). Then every
`picohash_insert` returns 0 and `count = N`; each key is retrieved; and for each key,
`picohash_delete_key` on the key and `picohash_delete_item` on its item give the same
memory, in which `count = N - 1`, `picohash_retrieve` of that key returns `NULL`, and every
other inserted key is still retrieved with its own item. Fuel above `N` is enough. -/
theorem picohash_insert_distinct_then_delete (m0 : Mem) (ins : List (Addr × Key))
    (hempty : WF m0 (fun _ => [])) (hnb : 0 < m0.table.nb_bin)
    (hobt : ∀ p ∈ ins, obtain_item m0.table (some p.1) p.2 = some p.1)
    (hnd : (ins.map Prod.fst).Nodup) (hval : ∀ p ∈ ins, valid_ptr p.1)
    (hrefl : ∀ p ∈ ins, m0.table.picohash_compare p.2 p.2 = 0)
    (hdist : ins.Pairwise (fun p q =>
      m0.table.picohash_compare p.2 q.2 ≠ 0 ∧ m0.table.picohash_compare q.2 p.2 ≠ 0)) :
    ∃ m, insert_all m0 ins = .ok (List.replicate ins.length 0, m) ∧
      m.table.count = ins.length ∧
      ∀ p ∈ ins, ∀ fuel flag, ins.length < fuel →
        picohash_retrieve fuel m p.2 = .ok (some p.1) ∧
        ∃ m1, picohash_delete_key fuel m p.2 flag = .ok m1 ∧
          picohash_delete_item fuel m p.1 flag = .ok m1 ∧
          m1.table.count + 1 = ins.length ∧
          picohash_retrieve fuel m1 p.2 = .ok none ∧
          ∀ q ∈ ins, q ≠ p → picohash_retrieve fuel m1 q.2 = .ok (some q.1) := by
  obtain ⟨m, ch, hrun, hins⟩ :=
    insert_all_spec m0.table hnb ins [] m0 _ (inserted_empty hempty) hobt
      (by simpa using hnd) hval
  rw [List.nil_append] at hins
  refine ⟨m, hrun, hins.count, ?_⟩
  intro p hp fuel flag hfuel
  have hwf := hins.wf
  have hnbm : m.table.nb_bin = m0.table.nb_bin := hins.config.1
  have hnbp : 0 < m.table.nb_bin := by rw [hnbm]; exact hnb
  have hcmp : m.table.picohash_compare = m0.table.picohash_compare := hins.config.2.2.1
  have hbm : ∀ k, bin_of m.table.nb_bin (key_hash m.table k) =
      bin_of m0.table.nb_bin (key_hash m0.table k) := fun k => by
    rw [hnbm, key_hash_config hins.config]
  have hblt : ∀ k, bin_of m0.table.nb_bin (key_hash m0.table k) < m.table.nb_bin :=
    fun k => by rw [hnbm]; exact bin_of_lt _ hnb
  have hlen : ∀ i, i < m.table.nb_bin → (ch i).length < fuel := fun i hi => by
    have := length_le_chain_total ch hi
    rw [← hwf.count, hins.count] at this
    omega
  have hsym : Symmetric (fun p q : Addr × Key =>
      m0.table.picohash_compare p.2 q.2 ≠ 0 ∧ m0.table.picohash_compare q.2 p.2 ≠ 0) :=
    fun _ _ h => ⟨h.2, h.1⟩
  -- an item of a chain other than the item of `r` holds a key that `r`'s key does not match
  have hother : ∀ r ∈ ins, ∀ i, i < m.table.nb_bin → ∀ x ∈ ch i, x ≠ r.1 →
      m0.table.picohash_compare r.2 (m.items x).key ≠ 0 := by
    intro r hr i hi x hx hxr
    obtain ⟨k, hk⟩ := hins.known i hi x hx
    have hkey := (hins.placed (x, k) hk).2.1
    rw [hkey]
    have hne : r ≠ (x, k) := fun e => hxr (by rw [e])
    exact (List.Pairwise.forall hsym hdist hr hk hne).1
  obtain ⟨hp1, hp2, hp3⟩ := hins.placed p hp
  have hret : picohash_retrieve fuel m p.2 = .ok (some p.1) :=
    retrieve_unique hwf hnbp p.2 (hbm p.2) hp1 (by rw [hcmp, hp2]; exact hrefl p hp)
      (fun x hx hxa => by rw [hcmp]; exact hother p hp _ (hblt p.2) x hx hxa)
      (hlen _ (hblt p.2))
  have hhome : bin_of m.table.nb_bin (m.items p.1).hash =
      bin_of m0.table.nb_bin (key_hash m0.table p.2) := by rw [hp3, hnbm]
  obtain ⟨m1, hdel, hwf1, hcfg1, hcount1, hkeys1, _, _, _⟩ :=
    delete_item_found hwf hnbp flag (by rw [hhome]; exact hp1)
      (by rw [hhome]; exact hlen _ (hblt p.2))
  rw [hhome] at hwf1
  generalize hb : bin_of m0.table.nb_bin (key_hash m0.table p.2) = b at hwf1 hp1
  have hbl : b < m.table.nb_bin := by rw [← hb]; exact hblt p.2
  have hnb1 : m1.table.nb_bin = m.table.nb_bin := hcfg1.1
  have hnbp1 : 0 < m1.table.nb_bin := by rw [hnb1]; exact hnbp
  have hcmp1 : m1.table.picohash_compare = m0.table.picohash_compare := hcfg1.2.2.1.trans hcmp
  have hbm1 : ∀ k, bin_of m1.table.nb_bin (key_hash m1.table k) =
      bin_of m0.table.nb_bin (key_hash m0.table k) := fun k => by
    rw [hnb1, key_hash_config hcfg1, hbm]
  have hndb : (ch b).Nodup := isChain_nodup (hwf.chain b hbl)
  -- the chains after the deletion are parts of the chains before
  have hsub : ∀ i, i < m.table.nb_bin → ∀ x,
      x ∈ Function.update ch b ((ch b).erase p.1) i → x ∈ ch i ∧ x ≠ p.1 := by
    intro i hi x hx
    by_cases hib : i = b
    · rw [hib, Function.update_same] at hx
      rw [hib]
      exact ⟨List.mem_of_mem_erase hx, fun e => ((List.Nodup.mem_erase_iff hndb).1 hx).1 e⟩
    · rw [Function.update_noteq hib] at hx
      refine ⟨hx, fun e => hib ?_⟩
      rw [e] at hx
      have h1 := hwf.home i hi p.1 hx
      rw [hhome, hb] at h1
      exact h1.symm
  have hlen1 : ∀ i, i < m.table.nb_bin →
      (Function.update ch b ((ch b).erase p.1) i).length < fuel := by
    intro i hi
    by_cases hib : i = b
    · rw [hib, Function.update_same]
      exact lt_of_le_of_lt (List.length_erase_le _ _) (hlen b hbl)
    · rw [Function.update_noteq hib]
      exact hlen i hi
  refine ⟨hret, m1, ?_, hdel, by rw [hcount1, hins.count], ?_, ?_⟩
  · simp only [picohash_delete_key, hret]
    exact hdel
  · refine retrieve_absent hwf1 hnbp1 p.2 (hbm1 p.2) ?_ (hlen1 _ (hblt p.2))
    intro x hx
    obtain ⟨hx1, hx2⟩ := hsub _ (hblt p.2) x hx
    rw [hcmp1, (hkeys1 x).1]
    exact hother p hp _ (hblt p.2) x hx1 hx2
  · intro q hq hqp
    obtain ⟨hq1, hq2, _⟩ := hins.placed q hq
    have hqa : q.1 ≠ p.1 := fun e => hqp (List.inj_on_of_nodup_map hnd hq hp e)
    refine retrieve_unique hwf1 hnbp1 q.2 (hbm1 q.2) ?_ ?_ ?_ (hlen1 _ (hblt q.2))
    · by_cases hqb : bin_of m0.table.nb_bin (key_hash m0.table q.2) = b
      · rw [hqb, Function.update_same]
        rw [hqb] at hq1
        exact (List.mem_erase_of_ne hqa).2 hq1
      · rw [Function.update_noteq hqb]
        exact hq1
    · rw [hcmp1, (hkeys1 q.1).1, hq2]
      exact hrefl q hq
    · intro x hx hxq
      obtain ⟨hx1, _⟩ := hsub _ (hblt q.2) x hx
      rw [hcmp1, (hkeys1 x).1]
      exact hother q hq _ (hblt q.2) x hx1 hxq

/-- Instance of C3: the three keys of the scenario with 4 buckets. -/
theorem picohash_insert_distinct_then_delete_witness :
    ∃ m, insert_all (ex_mem ex_table4) ex_abc_calls = .ok (List.replicate 3 0, m) ∧
      m.table.count = 3 ∧
      ∀ p ∈ ex_abc_calls, ∀ fuel flag, 3 < fuel →
        picohash_retrieve fuel m p.2 = .ok (some p.1) ∧
        ∃ m1, picohash_delete_key fuel m p.2 flag = .ok m1 ∧
          picohash_delete_item fuel m p.1 flag = .ok m1 ∧
          m1.table.count + 1 = 3 ∧
          picohash_retrieve fuel m1 p.2 = .ok none ∧
          ∀ q ∈ ex_abc_calls, q ≠ p → picohash_retrieve fuel m1 q.2 = .ok (some q.1) :=
  picohash_insert_distinct_then_delete (ex_mem ex_table4) ex_abc_calls
    (wf_created 4 ex_hash ex_compare none none ex_items []) (by decide) (by decide)
    (by decide) (by decide) (by decide) (by decide)

/-- C11: with the table structure allocated, `picohash_create_ex` returns `NULL`, whatever
the allocator would answer for the bucket array, whenever the product of the pointer size
and `nb_bin` wrapped to 64 bits differs from the true product: the size check fails. For
`nb_bin > 0` whose product fits, the size check passes and, the bucket array being
allocated, the created table is returned. -/
theorem picohash_create_ex_size_check (mb : Nat → Bool) (nb_bin : Nat)
    (hash : Key → List Nat → Nat) (compare : Key → Key → Int)
    (k2i : Option (Key → Option Addr)) (seed : Option (List Nat)) :
    ((SIZEOF_ITEM_PTR * nb_bin) % UINT64_MOD ≠ SIZEOF_ITEM_PTR * nb_bin →
      (SIZEOF_ITEM_PTR * nb_bin) % UINT64_MOD / SIZEOF_ITEM_PTR ≠ nb_bin ∧
      picohash_create_ex true mb nb_bin hash compare k2i seed = .ok none) ∧
    (0 < nb_bin → (SIZEOF_ITEM_PTR * nb_bin) % UINT64_MOD = SIZEOF_ITEM_PTR * nb_bin →
      (SIZEOF_ITEM_PTR * nb_bin) % UINT64_MOD / SIZEOF_ITEM_PTR = nb_bin ∧
      (mb (SIZEOF_ITEM_PTR * nb_bin) = true →
        picohash_create_ex true mb nb_bin hash compare k2i seed =
          .ok (some (created_table nb_bin hash compare k2i seed)))) := by
  constructor
  · intro hne
    have hcheck : (SIZEOF_ITEM_PTR * nb_bin) % UINT64_MOD / SIZEOF_ITEM_PTR ≠ nb_bin := by
      have hge : UINT64_MOD ≤ SIZEOF_ITEM_PTR * nb_bin := by
        by_contra hlt
        exact hne (Nat.mod_eq_of_lt (by omega))
      have hlt : (SIZEOF_ITEM_PTR * nb_bin) % UINT64_MOD < UINT64_MOD :=
        Nat.mod_lt _ (by unfold UINT64_MOD; positivity)
      unfold UINT64_MOD SIZEOF_ITEM_PTR at *
      omega
    refine ⟨hcheck, ?_⟩
    simp only [picohash_create_ex, if_neg hcheck]
    rfl
  · intro _ hfit
    have hlt : SIZEOF_ITEM_PTR * nb_bin < UINT64_MOD := by
      rw [← hfit]
      exact Nat.mod_lt _ (by unfold UINT64_MOD; positivity)
    refine ⟨?_, fun hmb => create_ex_eq hash compare k2i seed hlt hmb⟩
    rw [hfit]
    exact Nat.mul_div_cancel_left nb_bin (by decide)

/-- Instance of C11: `nb_bin = 2^61` is rejected, `nb_bin = 4` is accepted. -/
theorem picohash_create_ex_size_check_witness :
    picohash_create_ex true ex_malloc_bins (2 ^ 61) ex_hash ex_compare none none = .ok none ∧
    picohash_create_ex true ex_malloc_bins 4 ex_hash ex_compare none none =
      .ok (some (created_table 4 ex_hash ex_compare none none)) :=
  ⟨((picohash_create_ex_size_check ex_malloc_bins (2 ^ 61) ex_hash ex_compare none none).1
      (by decide)).2,
    ((picohash_create_ex_size_check ex_malloc_bins 4 ex_hash ex_compare none none).2
      (by decide) (by decide)).2 rfl⟩

/-- C12, the code at a failing input: when the allocation of the table structure fails,
`picohash_create_ex` stores through the `NULL` pointer (`t->hash_bin = NULL` comes before
the test of `t`), so it faults instead of returning `NULL`. When only the allocation of
the bucket array fails it returns `NULL` and frees the table structure. -/
theorem picohash_create_ex_table_alloc_fault :
    picohash_create_ex false ex_malloc_bins 4 ex_hash ex_compare none none =
      .error Fault.null_deref ∧
    (∀ mb nb_bin hash compare k2i seed,
      picohash_create_ex false mb nb_bin hash compare k2i seed = .error Fault.null_deref) ∧
    picohash_create_ex true (fun _ => false) 4 ex_hash ex_compare none none = .ok none ∧
    picohash_create_ex_freed true (fun _ => false) 4 = .ok [Freed.table] :=
  ⟨rfl, fun _ _ _ _ _ _ => rfl, rfl, rfl⟩

/-- C14, the code at a failing input: with `nb_bin = 2^32 + 1` and the hash `2^32` the
bucket index that the three operations compute is 0, not `hash mod nb_bin = 2^32`: the
item with the cached hash `2^32` is linked in, and found in, bucket 0. -/
theorem picohash_bucket_index_truncated :
    bin_index (2 ^ 32 + 1) (2 ^ 32) = .ok 0 ∧ 2 ^ 32 % (2 ^ 32 + 1) = 2 ^ 32 ∧
    picohash_insert (some 16) (ex_mem ex_table_wide) (2 ^ 32) = .ok (0, ex_wide_inserted) ∧
    (ex_wide_inserted.items 16).hash = 2 ^ 32 ∧
    (ex_wide_inserted.items 16).hash % ex_wide_inserted.table.nb_bin = 2 ^ 32 ∧
    IsChain ex_wide_inserted.items (ex_wide_inserted.table.hash_bin 0) [16] ∧
    ex_wide_inserted.table.hash_bin (2 ^ 32) = none ∧
    picohash_retrieve 2 ex_wide_inserted (2 ^ 32) = .ok (some 16) ∧
    (∃ m1, picohash_delete_item 2 ex_wide_inserted 16 false = .ok m1 ∧
      m1.table.hash_bin 0 = none ∧ m1.table.count = 0) :=
  ⟨rfl, by decide, rfl, by decide, by decide, by decide, by decide, rfl,
    ⟨_, rfl, by decide, by decide⟩⟩

/-- C13, the code at a failing input: for an input of `2^32` bytes the loop counter of
`picohash_bytes`, a `uint32_t`, never reaches `length`, so whatever the fuel the call does
not return, while the reference fold has a value. For the inputs of fewer than `2^32`
bytes the code returns the value of the reference fold (`picohash_bytes_refines`). -/
theorem picohash_bytes_long_input_never_returns :
    (∀ fuel, picohash_bytes fuel ex_bytes (2 ^ 32) ex_seed = .error Fault.out_of_fuel) ∧
    picohash_bytes 4 ex_bytes 3 ex_seed = .ok (picohash_bytes_ref ex_bytes 3 ex_seed) ∧
    picohash_bytes 1 ex_bytes 0 ex_seed =
      .ok (seed_le64 ex_seed ^^^ (seed_le64 ex_seed >>> 11)) := by
  refine ⟨fun fuel => ?_, rfl, rfl⟩
  simp only [picohash_bytes, picohash_bytes_run,
    bytes_loop_wide ex_bytes ex_seed (show UINT32_MOD ≤ 2 ^ 32 by decide) fuel 0 _
      (show 0 < UINT32_MOD by decide)]

/-- C15: when the chain `l` of the bucket selected by the cached hash of `item` does not
contain `item`, `picohash_delete_item` returns (with fuel above the chain length) and
leaves the table, hence `count` and every bucket head, and the item memory, hence every
chain, as they were; it still frees the item in owned mode, and then its key when
`delete_key_too` is set. -/
theorem picohash_delete_item_stale (m : Mem) (item : Addr) (flag : Bool) (fuel : Nat)
    (l : List Addr) (hnb : 0 < m.table.nb_bin)
    (hchain : IsChain m.items
      (m.table.hash_bin (bin_of m.table.nb_bin (m.items item).hash)) l)
    (habsent : item ∉ l) (hfuel : l.length < fuel) :
    ∃ m1, picohash_delete_item fuel m item flag = .ok m1 ∧
      m1.table = m.table ∧ m1.items = m.items ∧
      m1.freed = m.freed ++
        (match m.table.picohash_key_to_item with
          | none => [Freed.item item]
          | some _ => []) ++
        (if flag then [Freed.key (m.items item).key] else []) := by
  generalize hbdef : bin_of m.table.nb_bin (m.items item).hash = b at hchain
  have hne : m.table.hash_bin b ≠ some item := by
    intro e
    cases l with
    | nil => simp only [IsChain] at hchain; rw [hchain] at e; simp at e
    | cons p l1 =>
      have : some p = some item := hchain.1.symm.trans e
      have hpi : p = item := by simpa using this
      exact habsent (by rw [hpi]; exact List.mem_cons_self _ _)
  have hrun := unlink_loop_absent item hchain
    (fun hx => habsent (List.mem_of_mem_tail hx)) hfuel
  refine ⟨release_item m item flag, ?_, rfl, rfl, ?_⟩
  · simp only [picohash_delete_item, bin_index_pos _ hnb, hbdef, hne, if_false, hrun]
  · simp only [release_item]
    cases m.table.picohash_key_to_item <;> cases flag <;> simp

/-- Instance of C15: the item at address 64 was never inserted in the scenario with 4
buckets. -/
theorem picohash_delete_item_stale_witness :
    ∃ m1, picohash_delete_item 3 ex_abc3 64 true = .ok m1 ∧
      m1.table = ex_abc3.table ∧ m1.items = ex_abc3.items ∧
      m1.freed = ex_abc3.freed ++
        (match ex_abc3.table.picohash_key_to_item with
          | none => [Freed.item 64]
          | some _ => []) ++
        (if true = true then [Freed.key (ex_abc3.items 64).key] else []) :=
  picohash_delete_item_stale ex_abc3 64 true 3 [32, 16] (by decide) (by decide) (by decide)
    (by decide)

/-- C17: `picohash_siphash` returns the little-endian 64-bit assembly of the first 8
output bytes `b0 .. b7` of the keyed hash primitive called on the input bytes, the length,
the seed as key and the output size 8: `b0 + b1 * 2^8 + ... + b7 * 2^56`. -/
theorem picohash_siphash_le64 (siphash : (Nat → Nat) → Nat → List Nat → Nat → List Nat)
    (bytes : Nat → Nat) (length : Nat) (hash_seed : List Nat) :
    picohash_siphash siphash bytes length hash_seed =
      seed_byte (siphash bytes length hash_seed 8) 0 +
      seed_byte (siphash bytes length hash_seed 8) 1 * 2 ^ 8 +
      seed_byte (siphash bytes length hash_seed 8) 2 * 2 ^ 16 +
      seed_byte (siphash bytes length hash_seed 8) 3 * 2 ^ 24 +
      seed_byte (siphash bytes length hash_seed 8) 4 * 2 ^ 32 +
      seed_byte (siphash bytes length hash_seed 8) 5 * 2 ^ 40 +
      seed_byte (siphash bytes length hash_seed 8) 6 * 2 ^ 48 +
      seed_byte (siphash bytes length hash_seed 8) 7 * 2 ^ 56 :=
  le64_eq _ _ _ _ _ _ _ _ (seed_byte_lt _ 0) (seed_byte_lt _ 1) (seed_byte_lt _ 2)
    (seed_byte_lt _ 3) (seed_byte_lt _ 4) (seed_byte_lt _ 5) (seed_byte_lt _ 6)
    (seed_byte_lt _ 7)

/-- C18: for every positive bucket count and every hash the index computation
`(uint32_t)(hash % nb_bin)` succeeds with an index strictly below `nb_bin`, so the access
to the bucket array is in bounds; the computation fails only for `nb_bin = 0`, by a
division by zero. `picohash_retrieve`, `picohash_insert` and `picohash_delete_item` fail
in that case and only in that one at this statement. -/
theorem picohash_bucket_index_in_bounds (nb_bin hash : Nat) :
    (0 < nb_bin → ∃ bin, bin_index nb_bin hash = .ok bin ∧ bin < nb_bin) ∧
    (nb_bin = 0 → bin_index nb_bin hash = .error Fault.div_by_zero) ∧
    (∀ e, bin_index nb_bin hash = .error e → nb_bin = 0 ∧ e = Fault.div_by_zero) ∧
    (∀ (m : Mem) fuel key malloc item flag, m.table.nb_bin = 0 →
      picohash_retrieve fuel m key = .error Fault.div_by_zero ∧
      picohash_insert malloc m key = .error Fault.div_by_zero ∧
      picohash_delete_item fuel m item flag = .error Fault.div_by_zero) := by
  refine ⟨fun h => ⟨_, bin_index_pos hash h, bin_of_lt hash h⟩, fun h => ?_, fun e he => ?_,
    fun m fuel key malloc item flag h =>
      ⟨retrieve_zero_bins fuel key h, insert_zero_bins malloc key h,
        delete_item_zero_bins fuel item flag h⟩⟩
  · simp only [bin_index, h, if_true]
  · unfold bin_index at he
    by_cases h0 : nb_bin = 0
    · rw [if_pos h0] at he
      simp only [Except.error.injEq] at he
      exact ⟨h0, he.symm⟩
    · rw [if_neg h0] at he
      cases he

/-- Instance of C18: 4 buckets and the largest 64-bit hash. -/
theorem picohash_bucket_index_in_bounds_witness :
    ∃ bin, bin_index 4 (2 ^ 64 - 1) = .ok bin ∧ bin < 4 :=
  (picohash_bucket_index_in_bounds 4 (2 ^ 64 - 1)).1 (by decide)

/-- C19: `rotate` is 11 before the loop of `picohash_bytes` and every execution of the
loop body leaves it between 11 and 42, whatever the accumulator, the input byte and the
seed byte; so in every run that returns, each right shift, in the loop and at the final
fold, has an amount between 11 and 42, below 64. A run on fewer than `2^32` bytes returns
and makes `length + 1` right shifts. -/
theorem picohash_bytes_rotate_range :
    (∀ st byte seed, 11 ≤ (bytes_step st byte seed).rotate ∧
      (bytes_step st byte seed).rotate ≤ 42) ∧
    (∀ fuel bytes length hash_seed st,
      picohash_bytes_run fuel bytes length hash_seed = .ok st →
      ∀ r ∈ st.shifts, 11 ≤ r ∧ r ≤ 42 ∧ r < 64) ∧
    (∀ fuel bytes length hash_seed, length < UINT32_MOD → length < fuel →
      ∃ st, picohash_bytes_run fuel bytes length hash_seed = .ok st ∧
        st.shifts.length = length + 1) := by
  refine ⟨bytes_step_rotate, ?_, ?_⟩
  · intro fuel bytes length hash_seed st hrun
    unfold picohash_bytes_run at hrun
    cases hl : bytes_loop bytes length hash_seed fuel 0
        { hash := seed_word hash_seed, rotate := 11, shifts := [] } with
    | error e => rw [hl] at hrun; cases hrun
    | ok st1 =>
      rw [hl] at hrun
      simp only [Except.ok.injEq] at hrun
      obtain ⟨hs, hr⟩ := bytes_loop_shifts bytes length hash_seed fuel 0 _ st1
        (fun r hr => by simp at hr) ⟨le_refl 11, by show 11 ≤ 42; omega⟩ hl
      intro r hmem
      rw [← hrun] at hmem
      simp only [List.mem_append, List.mem_singleton] at hmem
      rcases hmem with h1 | h1
      · have := hs r h1
        omega
      · rw [h1]; omega
  · intro fuel bytes length hash_seed hnarrow hfuel
    obtain ⟨st1, hrun, _, hlen⟩ :=
      bytes_loop_fold bytes length hash_seed hnarrow length 0 fuel
        { hash := seed_word hash_seed, rotate := 11, shifts := [] } (by omega) hfuel
    refine ⟨{ hash := st1.hash ^^^ (st1.hash >>> st1.rotate), rotate := st1.rotate,
              shifts := st1.shifts ++ [st1.rotate] },
      by simp only [picohash_bytes_run, hrun], ?_⟩
    simp only [List.length_append, List.length_singleton, hlen, List.length_nil]
    omega

/-- C20: `picohash_bytes` reads the seed bytes 8 to 15 and the seed bytes `i mod 16` for
`i < length` only: for an input of `n ≤ 8` bytes and two seeds that agree on the bytes
`0 .. n-1` and on the bytes 8 to 15, the two calls return, with fuel above `n`, the same
hash; the hash of the empty input is the same for two seeds that agree on the bytes 8 to
15. In general two seeds that agree on the bytes 8 to 15 and on the bytes `i mod 16` for
`i < length` give the same result. -/
theorem picohash_bytes_seed_independence (bytes : Nat → Nat) (n : Nat) (s1 s2 : List Nat)
    (fuel : Nat) (hn : n ≤ 8) (hfuel : n < fuel)
    (hlow : ∀ j, j < n → seed_byte s1 j = seed_byte s2 j)
    (hhigh : ∀ j, 8 ≤ j → j < 16 → seed_byte s1 j = seed_byte s2 j) :
    picohash_bytes fuel bytes n s1 = picohash_bytes fuel bytes n s2 ∧
    (∃ h, picohash_bytes fuel bytes n s1 = .ok h) ∧
    picohash_bytes fuel bytes 0 s1 = picohash_bytes fuel bytes 0 s2 ∧
    (∀ length f, (∀ j, j < length → seed_byte s1 (j % 16) = seed_byte s2 (j % 16)) →
      picohash_bytes f bytes length s1 = picohash_bytes f bytes length s2) := by
  have hword : seed_word s1 = seed_word s2 := by
    simp only [seed_word, hhigh 8 (by omega) (by omega), hhigh 9 (by omega) (by omega),
      hhigh 10 (by omega) (by omega), hhigh 11 (by omega) (by omega),
      hhigh 12 (by omega) (by omega), hhigh 13 (by omega) (by omega),
      hhigh 14 (by omega) (by omega), hhigh 15 (by omega) (by omega)]
  have hidx : ∀ j, j < n → j &&& 15 = j := fun j hj => by
    rw [and_15_eq_mod]; exact Nat.mod_eq_of_lt (by omega)
  refine ⟨?_, ?_, ?_, ?_⟩
  · simp only [picohash_bytes, picohash_bytes_run, hword,
      bytes_loop_seed bytes n s1 s2 (fun j hj => by rw [hidx j hj]; exact hlow j hj)]
  · rw [picohash_bytes_refines bytes n s1 fuel
      (lt_of_le_of_lt hn (by decide)) hfuel]
    exact ⟨_, rfl⟩
  · simp only [picohash_bytes, picohash_bytes_run, hword,
      bytes_loop_seed bytes 0 s1 s2 (fun j hj => absurd hj (by omega))]
  · intro length f hagree
    simp only [picohash_bytes, picohash_bytes_run, hword,
      bytes_loop_seed bytes length s1 s2
        (fun j hj => by rw [and_15_eq_mod]; exact hagree j hj)]

/-- Instance of C20: three input bytes, two seeds that differ in the bytes 3 to 7. -/
theorem picohash_bytes_seed_independence_witness :
    picohash_bytes 4 ex_bytes 3 ex_seed = picohash_bytes 4 ex_bytes 3 ex_seed_other ∧
    (∃ h, picohash_bytes 4 ex_bytes 3 ex_seed = .ok h) ∧
    picohash_bytes 4 ex_bytes 0 ex_seed = picohash_bytes 4 ex_bytes 0 ex_seed_other := by
  obtain ⟨h1, h2, h3, _⟩ :=
    picohash_bytes_seed_independence ex_bytes 3 ex_seed ex_seed_other 4 (by decide)
      (by decide) (by decide) (by decide)
  exact ⟨h1, h2, h3⟩

/-- C16: when `picohash_retrieve` of `k` returns the item `a`, `picohash_delete_key` of `k`
is `picohash_delete_item` of `a`; in a table that satisfies the invariant `a` is the first
item of the chain of the bucket of `k` that matches `k`, the call removes `a` alone from
that chain, keeps the other chains and takes 1 from `count`. So after the insertion of two
equal keys `k1` then `k2` (owned mode, fresh items `a1`, `a2`), one `picohash_delete_key`
removes the newer item `a2` and leaves the older `a1` in the chain and retrieved; and
`picohash_delete_item` on the older item `a1` leaves the lookup returning the newer
`a2`. -/
theorem picohash_delete_key_is_delete_item (m : Mem) (ch : Nat → List Addr) (k1 k2 : Key)
    (a1 a2 : Addr) (fuel : Nat) (flag : Bool) (hwf : WF m ch) (hnb : 0 < m.table.nb_bin)
    (howned : m.table.picohash_key_to_item = none)
    (h11 : m.table.picohash_compare k1 k1 = 0) (h12 : m.table.picohash_compare k1 k2 = 0)
    (h21 : m.table.picohash_compare k2 k1 = 0) (h22 : m.table.picohash_compare k2 k2 = 0)
    (hhash : key_hash m.table k1 = key_hash m.table k2)
    (hv1 : valid_ptr a1) (hv2 : valid_ptr a2)
    (hf1 : ∀ i, i < m.table.nb_bin → a1 ∉ ch i) (hf2 : ∀ i, i < m.table.nb_bin → a2 ∉ ch i)
    (hne : a2 ≠ a1)
    (hfuel : (ch (bin_of m.table.nb_bin (key_hash m.table k1))).length + 2 < fuel) :
    (∀ (m0 : Mem) k a f fl, picohash_retrieve f m0 k = .ok (some a) →
      picohash_delete_key f m0 k fl = picohash_delete_item f m0 a fl) ∧
    (∀ k a f fl, (ch (bin_of m.table.nb_bin (key_hash m.table k))).length < f →
      picohash_retrieve f m k = .ok (some a) →
      (ch (bin_of m.table.nb_bin (key_hash m.table k))).find?
        (fun x => decide (m.table.picohash_compare k (m.items x).key = 0)) = some a ∧
      ∃ m1, picohash_delete_key f m k fl = .ok m1 ∧
        IsChain m1.items (m1.table.hash_bin (bin_of m.table.nb_bin (key_hash m.table k)))
          ((ch (bin_of m.table.nb_bin (key_hash m.table k))).erase a) ∧
        (∀ j, j < m.table.nb_bin → j ≠ bin_of m.table.nb_bin (key_hash m.table k) →
          IsChain m1.items (m1.table.hash_bin j) (ch j)) ∧
        m1.table.count + 1 = m.table.count) ∧
    (∃ m1 m2, picohash_insert (some a1) m k1 = .ok (0, m1) ∧
      picohash_insert (some a2) m1 k2 = .ok (0, m2) ∧
      (∃ m3, picohash_delete_key fuel m2 k1 flag = .ok m3 ∧
        picohash_delete_key fuel m2 k2 flag = .ok m3 ∧
        m3.table.count + 1 = m2.table.count ∧
        IsChain m3.items (m3.table.hash_bin (bin_of m.table.nb_bin (key_hash m.table k1)))
          (a1 :: ch (bin_of m.table.nb_bin (key_hash m.table k1))) ∧
        picohash_retrieve fuel m3 k1 = .ok (some a1) ∧
        picohash_retrieve fuel m3 k2 = .ok (some a1)) ∧
      (∃ m4, picohash_delete_item fuel m2 a1 flag = .ok m4 ∧
        m4.table.count + 1 = m2.table.count ∧
        IsChain m4.items (m4.table.hash_bin (bin_of m.table.nb_bin (key_hash m.table k1)))
          (a2 :: ch (bin_of m.table.nb_bin (key_hash m.table k1))) ∧
        picohash_retrieve fuel m4 k1 = .ok (some a2) ∧
        picohash_retrieve fuel m4 k2 = .ok (some a2))) := by
  refine ⟨?_, ?_, ?_⟩
  · intro m0 k a f fl hr
    simp only [picohash_delete_key, hr]
  · intro k a f fl hf hr
    have hfind := hr
    rw [retrieve_spec hwf hnb k hf] at hfind
    simp only [Except.ok.injEq] at hfind
    obtain ⟨hhome, hmem, _⟩ := retrieved_in_home hwf hr
    have hb := hwf.home _ (bin_of_lt _ hnb) a hmem
    obtain ⟨m1, hrun, hwf1, hcfg, hcount, _⟩ :=
      delete_item_found hwf hnb fl hhome (by rw [hb]; exact hf)
    rw [hb] at hwf1
    have hnb1 : m1.table.nb_bin = m.table.nb_bin := hcfg.1
    refine ⟨hfind, m1, by simp only [picohash_delete_key, hr]; exact hrun, ?_, ?_, hcount⟩
    · have := hwf1.chain _ (by rw [hnb1]; exact bin_of_lt (key_hash m.table k) hnb)
      rwa [Function.update_same] at this
    · intro j hj hjb
      have := hwf1.chain j (by rw [hnb1]; exact hj)
      rwa [Function.update_noteq hjb] at this
  · obtain ⟨m1, m2, hrun1, hrun2, hwf2, hcfg2, _, hkey2, hkey1, hhash2, hhash1⟩ :=
      insert_two_spec hwf hnb howned hhash hv1 hv2 hf1 hf2 hne
    refine ⟨m1, m2, hrun1, hrun2, ?_, ?_⟩ <;>
      generalize hb : bin_of m.table.nb_bin (key_hash m.table k1) = b at hwf2 hfuel ⊢
    all_goals
      have hblt : b < m.table.nb_bin := by rw [← hb]; exact bin_of_lt _ hnb
      have hnb2 : m2.table.nb_bin = m.table.nb_bin := hcfg2.1
      have hnbp2 : 0 < m2.table.nb_bin := by rw [hnb2]; exact hnb
      have hcmp2 : m2.table.picohash_compare = m.table.picohash_compare := hcfg2.2.2.1
      have hbk : ∀ k, key_hash m.table k = key_hash m.table k1 →
          bin_of m2.table.nb_bin (key_hash m2.table k) = b := fun k hk => by
        rw [hnb2, key_hash_config hcfg2, hk, hb]
    · -- deletion by key removes the newer item
      have hhome2 : bin_of m2.table.nb_bin (m2.items a2).hash = b := by
        rw [hnb2, hhash2, hb]
      have hret1 : picohash_retrieve fuel m2 k1 = .ok (some a2) :=
        retrieve_head hwf2 hnbp2 k1 (hbk k1 rfl) (Function.update_same _ _ _)
          (by rw [hcmp2, hkey2]; exact h12) (by simp only [List.length_cons]; omega)
      have hret2 : picohash_retrieve fuel m2 k2 = .ok (some a2) :=
        retrieve_head hwf2 hnbp2 k2 (hbk k2 hhash.symm) (Function.update_same _ _ _)
          (by rw [hcmp2, hkey2]; exact h22) (by simp only [List.length_cons]; omega)
      have hlen2 : (Function.update ch b (a2 :: a1 :: ch b)
          (bin_of m2.table.nb_bin (m2.items a2).hash)).length < fuel := by
        rw [hhome2, Function.update_same]; simp only [List.length_cons]; omega
      obtain ⟨m3, hdel, hwf3, hcfg3, hcount3, hkeys3, _⟩ :=
        delete_item_found hwf2 hnbp2 flag
          (by rw [hhome2, Function.update_same]; exact List.mem_cons_self _ _) hlen2
      rw [hhome2, Function.update_same, Function.update_idem, List.erase_cons_head] at hwf3
      have hnb3 : m3.table.nb_bin = m.table.nb_bin := hcfg3.1.trans hnb2
      have hnbp3 : 0 < m3.table.nb_bin := by rw [hnb3]; exact hnb
      have hcmp3 : m3.table.picohash_compare = m.table.picohash_compare :=
        hcfg3.2.2.1.trans hcmp2
      have hbk3 : ∀ k, key_hash m.table k = key_hash m.table k1 →
          bin_of m3.table.nb_bin (key_hash m3.table k) = b := fun k hk => by
        rw [hnb3, key_hash_config hcfg3, key_hash_config hcfg2, hk, hb]
      have hchain3 := hwf3.chain b (by rw [hnb3]; exact hblt)
      rw [Function.update_same] at hchain3
      refine ⟨m3, ?_, ?_, hcount3, hchain3, ?_, ?_⟩
      · simp only [picohash_delete_key, hret1]; exact hdel
      · simp only [picohash_delete_key, hret2]; exact hdel
      · exact retrieve_head hwf3 hnbp3 k1 (hbk3 k1 rfl) (Function.update_same _ _ _)
          (by rw [hcmp3, (hkeys3 a1).1, hkey1]; exact h11) (by omega)
      · exact retrieve_head hwf3 hnbp3 k2 (hbk3 k2 hhash.symm) (Function.update_same _ _ _)
          (by rw [hcmp3, (hkeys3 a1).1, hkey1]; exact h21) (by omega)
    · -- deletion of the older item leaves the newer one
      have hhome1 : bin_of m2.table.nb_bin (m2.items a1).hash = b := by
        rw [hnb2, hhash1, hb]
      have hlen2 : (Function.update ch b (a2 :: a1 :: ch b)
          (bin_of m2.table.nb_bin (m2.items a1).hash)).length < fuel := by
        rw [hhome1, Function.update_same]; simp only [List.length_cons]; omega
      obtain ⟨m4, hdel, hwf4, hcfg4, hcount4, hkeys4, _⟩ :=
        delete_item_found hwf2 hnbp2 flag
          (by rw [hhome1, Function.update_same]
              exact List.mem_cons_of_mem _ (List.mem_cons_self _ _)) hlen2
      rw [hhome1, Function.update_same, Function.update_idem,
        List.erase_cons_tail (by simpa using hne), List.erase_cons_head] at hwf4
      have hnb4 : m4.table.nb_bin = m.table.nb_bin := hcfg4.1.trans hnb2
      have hnbp4 : 0 < m4.table.nb_bin := by rw [hnb4]; exact hnb
      have hcmp4 : m4.table.picohash_compare = m.table.picohash_compare :=
        hcfg4.2.2.1.trans hcmp2
      have hbk4 : ∀ k, key_hash m.table k = key_hash m.table k1 →
          bin_of m4.table.nb_bin (key_hash m4.table k) = b := fun k hk => by
        rw [hnb4, key_hash_config hcfg4, key_hash_config hcfg2, hk, hb]
      have hchain4 := hwf4.chain b (by rw [hnb4]; exact hblt)
      rw [Function.update_same] at hchain4
      refine ⟨m4, hdel, hcount4, hchain4, ?_, ?_⟩
      · exact retrieve_head hwf4 hnbp4 k1 (hbk4 k1 rfl) (Function.update_same _ _ _)
          (by rw [hcmp4, (hkeys4 a2).1, hkey2]; exact h12) (by omega)
      · exact retrieve_head hwf4 hnbp4 k2 (hbk4 k2 hhash.symm) (Function.update_same _ _ _)
          (by rw [hcmp4, (hkeys4 a2).1, hkey2]; exact h22) (by omega)

/-- Instance of C16: keys 5 and 21, equal under the comparator of the low 4 bits, inserted
with the items at 64 and 80 into the empty table of 4 buckets. -/
theorem picohash_delete_key_is_delete_item_witness :
    ∃ m1 m2, picohash_insert (some 64) (ex_mem ex_table16) 5 = .ok (0, m1) ∧
      picohash_insert (some 80) m1 21 = .ok (0, m2) ∧
      (∃ m3, picohash_delete_key 3 m2 5 false = .ok m3 ∧
        picohash_delete_key 3 m2 21 false = .ok m3 ∧
        m3.table.count + 1 = m2.table.count ∧
        IsChain m3.items (m3.table.hash_bin 1) [64] ∧
        picohash_retrieve 3 m3 5 = .ok (some 64) ∧
        picohash_retrieve 3 m3 21 = .ok (some 64)) ∧
      (∃ m4, picohash_delete_item 3 m2 64 false = .ok m4 ∧
        m4.table.count + 1 = m2.table.count ∧
        IsChain m4.items (m4.table.hash_bin 1) [80] ∧
        picohash_retrieve 3 m4 5 = .ok (some 80) ∧
        picohash_retrieve 3 m4 21 = .ok (some 80)) :=
  (picohash_delete_key_is_delete_item (ex_mem ex_table16) (fun _ => []) 5 21 64 80 3 false
    (wf_created 4 ex_hash16 ex_compare16 none none ex_items []) (by decide) rfl
    (by decide) (by decide) (by decide) (by decide) (by decide) (by decide) (by decide)
    (fun _ _ => by simp) (fun _ _ => by simp) (by decide) (by decide)).2.2

end Picohash
